import Mathlib

/-!
A shallow embedding of the persistent B+-tree slice sequence ("slicetable")
implemented in `src/btree.c` of the libpt repository, together with theorems
settling the frozen claims about it.

Modelling conventions, used throughout and noted per definition:

* Bytes are `Nat` values (`'\n'` is `10`).  A slice (a leaf slot) is the list
  of its live bytes; its `span` is the length of that list.  This is faithful:
  in the C code a leaf slot is a `(span, ptr)` pair and exactly the first
  `span` bytes behind `ptr` are ever read, so a slot carries no observable
  information beyond those bytes.
* Nodes hold their live slots as a list; in the C code the live slots are the
  prefix of a fixed `B`-element array, terminated by `EMPTY` (`ULONG_MAX`)
  spans and null child pointers, and `node_fill` counts them.  The list length
  plays the role of the fill.
* The block registry is kept at the pointer level (`BlockSt`): block identity,
  the `next` field of each block and the list head are modelled explicitly,
  because the claims about block registration are about that pointer structure.
* Machine integers: positions and spans are `Nat`, the signed `long` deltas of
  the C code are `Int`.  Size_t subtractions that cannot underflow in the
  executions covered by a claim's hypotheses are Nat subtractions.
* `ensure_node_editable` copies a shared node without changing its value (the
  copy holds the same spans and, byte for byte, the same slice contents), so in
  this value-level model it is the identity and is not written out; heap
  operations that the C code performs but that have no effect on any value the
  claims observe (refcount bumps, frees) are dropped.
* Where the C code would dereference a null pointer or read out of bounds, the
  model returns `none`.
-/

namespace Libpt

set_option maxRecDepth 40000
set_option maxHeartbeats 8000000

/-- `#define HIGH_WATER (1<<10)` (btree.c line 22): boundary between small and
large slices. -/
def HIGH_WATER : Nat := 1 <<< 10

/-- `#define NODESIZE (256 - sizeof(atomic_int))` with `sizeof(atomic_int) = 4`
(btree.c line 39). -/
def NODESIZE : Nat := 256 - 4

/-- `#define PER_B (sizeof(size_t) + sizeof(void *))` = 8 + 8 on the 64-bit
targets the code is written for (btree.c line 40). -/
def PER_B : Nat := 8 + 8

/-- `#define B ((int)(NODESIZE / PER_B))` (btree.c line 41); evaluates to 15. -/
def B : Nat := NODESIZE / PER_B

/-- The C idiom `B/2 + (B&1)` used for the minimum fill, i.e. ceil(B/2) = 8. -/
def BHALF : Nat := B / 2 + (B % 2)

/-- A slice: the live bytes of one leaf slot.  Its span is its length. -/
abbrev Slice := List Nat

/-- `struct node` (btree.c lines 42-46): a leaf (level 1) holds data slots, an
inner node holds `(subtree span, child)` slots.  Only the live prefix of the
slot array is represented. -/
inductive N : Type where
  | leaf (ss : List Slice)
  | inner (kids : List (Nat × N))

/-- The block registry of a slicetable, at pointer level: `head` models the
`blocks` field of `struct slicetable`, `nxt` is the `next` field of each
allocated block (keyed by block id), and `fresh` is the allocator (the id the
next `malloc`'d block will get). -/
structure BlockSt where
  head : Option Nat
  nxt : List (Nat × Option Nat)
  fresh : Nat

/-- `struct slicetable` (btree.c lines 48-56). -/
structure SliceTable where
  root : N
  blocks : BlockSt
  levels : Nat

/-- `count_lfs` (btree.c lines 60-66): number of newline bytes. -/
def count_lfs (s : List Nat) : Nat := s.countP (· == 10)

/-- `node_offset` (btree.c lines 131-139): index of the first slot spanning the
search key, together with the remaining key.  The C loop `while(*key >
node->spans[i])` stops at the `EMPTY = ULONG_MAX` sentinel of the first dead
slot, which in the list model is the end of the list. -/
def node_offset : List Nat → Nat → Nat × Nat
  | [], key => (0, key)
  | s :: rest, key =>
    if s < key then
      let r := node_offset rest (key - s)
      (r.1 + 1, r.2)
    else (0, key)

/-- The span column of a node: slice lengths in a leaf, cached subtree spans in
an inner node (the `spans` array restricted to live slots). -/
def surfaceSpans : N → List Nat
  | .leaf ss => ss.map List.length
  | .inner kids => kids.map Prod.fst

/-- `node_sum(node, fill)` applied to all live slots (btree.c lines 123-129). -/
def node_sum (n : N) : Nat := (surfaceSpans n).sum

/-- `node_fill` (btree.c lines 142-149): the number of live slots. -/
def fillOf : N → Nat
  | .leaf ss => ss.length
  | .inner kids => kids.length

/-- `st_size` (btree.c lines 210-213): the sum of the root's live spans. -/
def st_size (st : SliceTable) : Nat := node_sum st.root

/-- `st_depth` (btree.c line 208). -/
def st_depth (st : SliceTable) : Nat := st.levels - 1

mutual

/-- Total number of live bytes stored below a node (the value a node denotes,
length-wise). -/
def contentLen : N → Nat
  | .leaf ss => (ss.map List.length).sum
  | .inner kids => kidsContent kids

/-- Content length of an inner node's child list. -/
def kidsContent : List (Nat × N) → Nat
  | [] => 0
  | k :: ks => contentLen k.2 + kidsContent ks

end

mutual

/-- In-order byte sequence below a node. -/
def contentOf : N → List Nat
  | .leaf ss => ss.flatten
  | .inner kids => kidsContent2 kids

/-- In-order byte sequence of an inner node's child list. -/
def kidsContent2 : List (Nat × N) → List Nat
  | [] => []
  | k :: ks => contentOf k.2 ++ kidsContent2 ks

end

/-- The bytes `fprintf(file, "%.*s", (int)span, data)` emits for one slice
(btree.c line 1309): at most `span` characters, but `%s` stops at the first
NUL byte, so exactly the longest NUL-free prefix of the slice. -/
def printSlice (s : Slice) : Slice := s.takeWhile (fun b => !(b == 0))

mutual

/-- In-order sequence of bytes the dump actually prints below a node: each
slice truncated at its first NUL. -/
def printedOf : N → List Nat
  | .leaf ss => (ss.map printSlice).flatten
  | .inner kids => kidsPrinted kids

/-- Printed byte sequence of an inner node's child list. -/
def kidsPrinted : List (Nat × N) → List Nat
  | [] => []
  | k :: ks => printedOf k.2 ++ kidsPrinted ks

end

/-- Write `v` into the `next` field of block `k`. -/
def setNext (l : List (Nat × Option Nat)) (k : Nat) (v : Option Nat) :
    List (Nat × Option Nat) :=
  l.map fun p => if p.1 = k then (k, v) else p

/-- Allocate a fresh block and push it on the block list the way
`slice_insert` (btree.c lines 305-306) and `st_new_from_file` (line 262) do:
`new->next = st->blocks; st->blocks = new;`. -/
def pushBlock (bs : BlockSt) : BlockSt :=
  { head := some bs.fresh, nxt := (bs.fresh, bs.head) :: bs.nxt,
    fresh := bs.fresh + 1 }

/-- Block registration as written in `insert_leaf`'s big-insertion slow path
(btree.c lines 629-630): `new->next = st->blocks; st->blocks->next = new;`.
The write through `st->blocks` dereferences a null pointer when the block list
is empty, modelled as `none`; otherwise the head block's `next` is redirected
to the fresh block while the list head is left unchanged. -/
def registerBig (bs : BlockSt) : Option BlockSt :=
  match bs.head with
  | none => none
  | some h =>
    some { head := some h,
           nxt := setNext ((bs.fresh, some h) :: bs.nxt) h (some bs.fresh),
           fresh := bs.fresh + 1 }

/-- Follow `next` pointers from `start` for at most `fuel` steps; `some l`
means the chain ended (a null `next`) after visiting `l`, `none` means the walk
was still going when the fuel ran out.  An acyclic chain over a registry with
`n` blocks is exhausted by any fuel above `n`. -/
def chainFrom (nxt : List (Nat × Option Nat)) : Nat → Option Nat → Option (List Nat)
  | _, none => some []
  | 0, some _ => none
  | fuel + 1, some b =>
    (chainFrom nxt fuel ((nxt.lookup b).join)).map (b :: ·)

/-- `slice_insert` (btree.c lines 291-311), only ever used on small slices:
splice `data` into `target` at `offset`.  When the result would exceed
`HIGH_WATER` the buffer is reallocated to exact size and registered as a fresh
HEAP block pushed on the block list; either way the resulting bytes are the
same splice. -/
def slice_insert (bs : BlockSt) (target : Slice) (off : Nat) (data : Slice) :
    BlockSt × Slice :=
  let res := target.take off ++ data ++ target.drop off
  if target.length + data.length > HIGH_WATER then (pushBlock bs, res)
  else (bs, res)

/-- The loop body state of `merge_slices` (btree.c lines 313-332): `done` holds
slots `[0, i)` in reverse, `rest` holds slots `[i, fill)`. -/
def merge_go (bs : BlockSt) (done rest : List Slice) : BlockSt × List Slice :=
  match rest with
  | [] => (bs, done.reverse)
  | x :: rs =>
    if x.length > HIGH_WATER then
      -- i += 2: a large slice cannot merge with the slot to its left
      match rs with
      | [] => (bs, (x :: done).reverse)
      | y :: rs2 => merge_go bs (y :: x :: done) rs2
    else
      match done with
      | prev :: dn =>
        if prev.length ≤ HIGH_WATER then
          -- both small: concatenate slot i into slot i-1, shift down
          let r := slice_insert bs prev prev.length x
          merge_go r.1 (r.2 :: dn) rs
        else merge_go bs (x :: done) rs
      | [] => merge_go bs (x :: done) rs

/-- `merge_slices` (btree.c lines 313-332): left-to-right merge pass over an
edit window, starting at `i = 1`. -/
def merge_slices (bs : BlockSt) (l : List Slice) : BlockSt × List Slice :=
  match l with
  | [] => (bs, [])
  | a :: rest => merge_go bs [a] rest

/-- The inner loop of `check_recurse`'s leaf case (btree.c lines 1207-1222):
no zero span, no two adjacent small slices.  The boolean argument is
`last_issmall`. -/
def leafSlotsOk : List Slice → Bool → Bool
  | [], _ => true
  | s :: rest, lastSmall =>
    if s.length == 0 then false
    else
      let issmall : Bool := s.length ≤ HIGH_WATER
      if lastSmall && issmall then false
      else leafSlotsOk rest issmall

mutual

/-- `check_recurse` (btree.c lines 1196-1255) together with its child loop.
A node whose shape disagrees with its level (an inner node at level 1, or a
leaf above level 1) fails the check; in C that situation would be a
reinterpretation of unrelated memory. -/
def check_recurse : N → Nat → Nat → Bool
  | .leaf ss, height, level =>
    if level == 1 then
      ((height == 1) || decide (ss.length ≥ BHALF)) && leafSlotsOk ss false
    else false
  | .inner kids, height, level =>
    if level == 1 then false
    else
      (decide (kids.length ≥ (if level == height then 2 else BHALF))) &&
      checkKids kids height (level - 1)

/-- The per-child loop of `check_recurse`'s inner case (btree.c lines
1232-1252): each child checks recursively and its surface span sum equals the
cached span in the parent slot. -/
def checkKids : List (Nat × N) → Nat → Nat → Bool
  | [], _, _ => true
  | (sp, c) :: ks, height, childlevel =>
    check_recurse c height childlevel &&
    (node_sum c == sp) &&
    checkKids ks height childlevel

end

/-- `st_check_invariants` (btree.c lines 1257-1260). -/
def st_check_invariants (st : SliceTable) : Bool :=
  check_recurse st.root st.levels st.levels

/-- `st_new` (btree.c lines 215-222): a single empty leaf, no blocks. -/
def st_new : SliceTable :=
  { root := .leaf [], blocks := { head := none, nxt := [], fresh := 0 },
    levels := 1 }

/-- `st_clone` (btree.c lines 277-286): a new table header sharing root and
block list.  The code runs `incref(&st->blocks->refc)` unconditionally, which
dereferences a null pointer when the block list is empty (`st->blocks ==
NULL`, as produced by `st_new`); that execution is `none`.  The refcount bumps
of the shared root and block head do not change any value and are dropped by
the value-level model. -/
def st_clone (st : SliceTable) : Option SliceTable :=
  match st.blocks.head with
  | none => none
  | some _ => some { root := st.root, blocks := st.blocks, levels := st.levels }

mutual

/-- Number of tree nodes below (and including) a node; the termination measure
for the breadth-first queue of `st_dump`. -/
def treeWeight : N → Nat
  | .leaf _ => 1
  | .inner kids => 1 + kidsWeight kids

/-- Sum of `treeWeight` over a child list. -/
def kidsWeight : List (Nat × N) → Nat
  | [] => 0
  | k :: ks => treeWeight k.2 + kidsWeight ks

end

/-- Total weight of a queue of nodes. -/
def queueWeight : List N → Nat
  | [] => 0
  | n :: q => treeWeight n + queueWeight q



/-- The breadth-first queue loop of `st_dump` (btree.c lines 1299-1311) with
its termination measure (the total node count of the queue) made explicit as a
fuel argument so that the definition evaluates by kernel reduction: an inner
node enqueues its children at the tail, a leaf emits its live slots through
`fprintf("%.*s", ...)`, i.e. each slice truncated at its first NUL byte.  The
fuel-out branch is unreachable when the fuel is at least `queueWeight`. -/
def dumpQgo : Nat → List N → List Nat
  | _, [] => []
  | 0, _ :: _ => []
  | fuel + 1, .leaf ss :: q => (ss.map printSlice).flatten ++ dumpQgo fuel q
  | fuel + 1, .inner kids :: q => dumpQgo fuel (q ++ kids.map Prod.snd)

/-- The breadth-first dump of a queue of nodes, fuelled by its own weight. -/
def dumpQ (q : List N) : List Nat := dumpQgo (queueWeight q) q

/-- `st_dump` (btree.c lines 1299-1311): the emitted byte sequence.  Note the
per-slice NUL truncation of `%.*s`: the program does not reproduce slices
containing byte 0 in full. -/
def st_dump (st : SliceTable) : List Nat := dumpQ [st.root]


/-- Insert `a` before index `i` (the `memmove` shift plus write used for slot
insertion throughout btree.c). -/
def insertAt (l : List α) (i : Nat) (a : α) : List α := l.take i ++ a :: l.drop i

/-- The tagged out-channel of `edit_recurse` and the leaf base cases: the C
code multiplexes it over `(struct node **split, size_t *splitsize)` where a
null `split` with nonzero `splitsize` signals underflow and `splitsize ==
ULONG_MAX` signals an emptied node (btree.c line 882). A written `splitsize`
of `0` (btree.c line 479 with `fill - 1 == 0`) is indistinguishable from no
signal, hence `fit` in that case. -/
inductive Up where
  | fit
  | split (n : N) (sz : Nat)
  | under (k : Nat)
  | emptied

/-- Result of one `edit_recurse`/leaf-case call: the new block registry, the
node that replaces the edited node in place, the returned `long` delta, the
final value of the in/out `*span` argument, the newline count written through
`ctx`, and the split/underflow channel. -/
structure EditRes where
  bs : BlockSt
  node : N
  delta : Int
  spanOut : Int
  lfs : Nat
  up : Up

/-- Is the slot at `i` live and small (`spans[i] <= HIGH_WATER`)?  A dead slot
carries `EMPTY = ULONG_MAX > HIGH_WATER`, hence `false` past the fill. -/
def smallAt (ss : List Slice) (i : Nat) : Bool :=
  match ss.get? i with
  | some s => decide (s.length ≤ HIGH_WATER)
  | none => false

/-- `insert_within_slice` (btree.c lines 490-586): split the large slice at
slot `i` around offset `off`, put the new slice between the fragments, run the
five-way merge over the window (neighbour, left fragment, new, right fragment,
neighbour) and splice the result back, splitting the leaf on overflow.
Materialising a fragment into a fresh small buffer copies the same bytes, so
the fragments are just `take`/`drop`. -/
def insert_within_slice (bs : BlockSt) (ss : List Slice) (i off : Nat)
    (nw : Slice) : Option EditRes :=
  match ss.get? i with
  | none => none
  | some si =>
    let fill := ss.length
    let right : Slice := si.drop off
    let left : Slice := si.take off
    let prevW := if 0 < i then (ss.take i).drop (i - 1) else []
    let nextW := (ss.drop (i + 1)).take 1
    let window := prevW ++ [left, nw, right] ++ nextW
    let tmpfill := window.length
    let m := merge_slices bs window
    let merged := m.2
    let newfill := merged.length
    let dm := tmpfill - newfill
    let realfill := fill + 2 - dm
    let lo := if 0 < i then i - 1 else i
    if realfill ≤ B then
      let newss := ss.take lo ++ merged ++ ss.drop (lo + (tmpfill - 2))
      let up := if realfill < BHALF then Up.under realfill else Up.fit
      some ⟨m.1, .leaf newss, (nw.length : Int), (nw.length : Int), 0, up⟩
    else
      let all := ss.take lo ++ merged ++ ss.drop (lo + (tmpfill - 2))
      let oldsum := (((ss.set i left).map List.length).sum + right.length : Nat)
      let nnf := B / 2 + 1
      let rightFill := realfill - nnf
      let leftN := all.take nnf
      let rightN := (all.drop nnf).take rightFill
      let newsum := (leftN.map List.length).sum
      let splitsize := (rightN.map List.length).sum
      some ⟨m.1, .leaf leftN, (newsum : Int) - (oldsum : Int), (nw.length : Int), 0,
            Up.split (.leaf rightN) splitsize⟩

/-- `insert_leaf` (btree.c lines 593-659): the base case of insertion.  The
`copy` buffer holds exactly the inserted bytes; for `len > HIGH_WATER` a HEAP
block is created and registered through the faulty `st->blocks->next = new`
path (`registerBig`). -/
def insert_leaf (data : List Nat) (bs : BlockSt) (ss : List Slice)
    (pos : Nat) (_span : Int) : Option EditRes :=
  let r := node_offset (ss.map List.length) pos
  let i := r.1
  let posr := r.2
  let fill := ss.length
  let len := data.length
  let lfs := count_lfs data
  let at_bound : Bool :=
    match ss.get? i with
    | some s => posr == s.length
    | none => false
  if posr == 0 && smallAt ss 0 then
    match ss with
    | s0 :: rest =>
      let r1 := slice_insert bs s0 0 data
      some ⟨r1.1, .leaf (r1.2 :: rest), (len : Int), (len : Int), lfs, Up.fit⟩
    | [] => none
  else if smallAt ss i then
    match ss.get? i with
    | some si =>
      let r1 := slice_insert bs si posr data
      some ⟨r1.1, .leaf (ss.set i r1.2), (len : Int), (len : Int), lfs, Up.fit⟩
    | none => none
  else if at_bound && decide (i + 1 < fill) && smallAt ss (i + 1) then
    match ss.get? (i + 1) with
    | some sn =>
      let r1 := slice_insert bs sn 0 data
      some ⟨r1.1, .leaf (ss.set (i + 1) r1.2), (len : Int), (len : Int), lfs, Up.fit⟩
    | none => none
  else
    match (if len > HIGH_WATER then registerBig bs else some bs) with
    | none => none
    | some bs1 =>
      let copy := data
      if at_bound || posr == 0 then
        let i2 := i + (if at_bound then 1 else 0)
        if fill == B then
          let pivot := B / 2 + (if i2 > B / 2 then 1 else 0)
          let leftN := ss.take pivot
          let rightN := ss.drop pivot
          let szR := (rightN.map List.length).sum
          if i2 > B / 2 then
            some ⟨bs1, .leaf leftN, (len : Int) - szR - len, (len : Int), lfs,
                  Up.split (.leaf (insertAt rightN (i2 - pivot) copy)) (szR + len)⟩
          else
            some ⟨bs1, .leaf (insertAt leftN i2 copy), (len : Int) - szR, (len : Int), lfs,
                  Up.split (.leaf rightN) szR⟩
        else
          some ⟨bs1, .leaf (insertAt ss i2 copy), (len : Int), (len : Int), lfs, Up.fit⟩
      else
        (insert_within_slice bs1 ss i posr copy).map (fun q => { q with lfs := lfs })

/-- `delete_within_slice` (btree.c lines 697-741): merge the edit window
(neighbour, truncated slot `i`, right fragment, neighbour) and splice it back;
`none` in the second component is the `B + 1` overflow return, which leaves
the leaf untouched (overflow implies no slots merged). -/
def delete_within_slice (bs : BlockSt) (ss : List Slice) (i : Nat)
    (new_right : Slice) : BlockSt × Option (List Slice) :=
  let fill := ss.length
  let prevW := if 0 < i then (ss.take i).drop (i - 1) else []
  let curW := match ss.get? i with | some s => [s] | none => []
  let nextW := (ss.drop (i + 1)).take 1
  let window := prevW ++ curW ++ [new_right] ++ nextW
  let tmpfill := window.length
  let m := merge_slices bs window
  let merged := m.2
  let dm := tmpfill - merged.length
  let realfill := fill + 1 - dm
  if realfill > B then (m.1, none)
  else
    let lo := if 0 < i then i - 1 else i
    (m.1, some (ss.take lo ++ merged ++ ss.drop (lo + (tmpfill - 1))))

/-- The whole-slot consuming loop of `delete_leaf`'s multi-slice case
(btree.c lines 825-834): returns the newline count of the consumed slots, the
remaining length to delete, and the remaining slots. -/
def consume (len : Nat) : List Slice → Nat × Nat × List Slice
  | [] => (0, len, [])
  | s :: rest =>
    if s.length ≤ len then
      let c := consume (len - s.length) rest
      (count_lfs s + c.1, c.2.1, c.2.2)
    else (0, len, s :: rest)

/-- `delete_leaf` (btree.c lines 744-886).  The search key `pos0` is the
original position plus one (the caller searches `pos + 1`), and `pos` is the
decremented in-slot offset.  `span` is negative: bytes remaining to delete. -/
def delete_leaf (bs : BlockSt) (ss : List Slice) (pos0 : Nat) (span : Int) :
    Option EditRes :=
  let r := node_offset (ss.map List.length) pos0
  let i := r.1
  let posr := r.2
  let pos := posr - 1
  let len := (-span).toNat
  match ss.get? i with
  | none => none
  | some si =>
    if 0 < pos ∧ pos + len < si.length then
      -- contained within a single slice
      let lfs := count_lfs ((si.drop pos).take len)
      if si.length ≤ HIGH_WATER then
        some ⟨bs, .leaf (ss.set i (si.take pos ++ si.drop (pos + len))),
              -(len : Int), span, lfs, Up.fit⟩
      else
        let right := si.drop (pos + len)
        let left := si.take pos
        let ss1 := ss.set i left
        let dws := delete_within_slice bs ss1 i right
        match dws.2 with
        | some newss =>
          let realfill := newss.length
          let up := if realfill < BHALF then Up.under realfill else Up.fit
          some ⟨dws.1, .leaf newss, -(len : Int), span, lfs, up⟩
        | none =>
          -- overflow: the leaf was full; split it and place the right fragment
          let i2 := i + 1
          let pivot := B / 2 + (if i2 > B / 2 then 1 else 0)
          let leftN := ss1.take pivot
          let rightN := ss1.drop pivot
          let szR := (rightN.map List.length).sum
          if i2 > B / 2 then
            some ⟨dws.1, .leaf leftN, -(len : Int) - szR - right.length, span, lfs,
                  Up.split (.leaf (insertAt rightN (i2 - pivot) right)) (szR + right.length)⟩
          else
            some ⟨dws.1, .leaf (insertAt leftN i2 right), -(len : Int) - szR, span, lfs,
                  Up.split (.leaf rightN) szR⟩
    else
      -- spans multiple slices
      let trunc := if 0 < pos then ss.take i ++ [si.take pos] else ss.take i
      let lfs0 := if 0 < pos then count_lfs (si.drop pos) else 0
      let len1 := if 0 < pos then len - (si.length - pos) else len
      let tail0 := if 0 < pos then ss.drop (i + 1) else ss.drop i
      let c := consume len1 tail0
      let pr : Nat × List Slice × Nat :=
        match c.2.2 with
        | [] => (0, [], c.2.1)
        | e :: es =>
          -- prefix-delete of the final slot (btree.c lines 836-853): small
          -- slices delete in place (keep the tail), large slices that stay
          -- large advance the data pointer (keep the tail), but a large slice
          -- whose remaining span becomes small is copied from the slice START
          -- (`memcpy(new, leaf->child[end], leaf->spans[end])`, line 848,
          -- missing the `+ len` offset), keeping the PREFIX of span - len
          -- bytes instead of the tail
          let kept :=
            if e.length ≤ HIGH_WATER then e.drop c.2.1
            else if e.length - c.2.1 ≤ HIGH_WATER then e.take (e.length - c.2.1)
            else e.drop c.2.1
          (count_lfs (e.take c.2.1), kept :: es, 0)
      let lfsTot := lfs0 + c.1 + pr.1
      let lenLeft := pr.2.2
      let newss0 := trunc ++ pr.2.1
      let start := trunc.length
      let wstart := start - 2
      let fill2 := newss0.length
      let tf := min (fill2 - wstart) 4
      let window := (newss0.drop wstart).take tf
      let m := merge_slices bs window
      let newss := newss0.take wstart ++ m.2 ++ newss0.drop (wstart + tf)
      let nf := newss.length
      let up := if nf < BHALF then (if nf == 0 then Up.emptied else Up.under nf) else Up.fit
      some ⟨m.1, .leaf newss, span + (lenLeft : Int), span + (lenLeft : Int), lfsTot, up⟩

/-- `merge_boundary` (btree.c lines 372-386): if the last live slice of `l`
(at index `lfill - 1`) and the first slice of `r` are both small, prepend the
former to the latter and clear `l`'s last slot.  Returns the new `l`, new `r`
and the moved span (0 if no merge; live slices never have span 0, so the
return value is unambiguous).  Only called with `lfill ≥ 1`. -/
def merge_boundary (bs : BlockSt) (l : List Slice) (lfill : Nat)
    (r : List Slice) : BlockSt × List Slice × List Slice × Nat :=
  match l.get? (lfill - 1), r.get? 0 with
  | some a, some b =>
    if a.length ≤ HIGH_WATER ∧ b.length ≤ HIGH_WATER then
      let si := slice_insert bs b 0 a
      (si.1, l.take (lfill - 1), si.2 :: r.drop 1, a.length)
    else (bs, l, r, 0)
  | _, _ => (bs, l, r, 0)

/-- `rebalance_node` (btree.c lines 345-370) at leaf level: steal `count`
slots from `j` into `i`; all of them if the combined fill fits in one node,
otherwise just enough to bring `i` to the minimum fill.  Returns the moved
byte total. -/
def rebalance_leaf (li lj : List Slice) (ifill jfill : Nat) (iOnLeft : Bool) :
    List Slice × List Slice × Nat :=
  let count := if ifill + jfill ≤ B then jfill else BHALF - ifill
  if iOnLeft then
    let moved := lj.take count
    (li ++ moved, (lj.drop count).take (jfill - count), (moved.map List.length).sum)
  else
    let moved := (lj.drop (jfill - count)).take count
    (moved ++ li, lj.take (jfill - count), (moved.map List.length).sum)

/-- `rebalance_node` (btree.c lines 345-370) at inner level; the moved total
sums the cached child spans. -/
def rebalance_inner (li lj : List (Nat × N)) (ifill jfill : Nat)
    (iOnLeft : Bool) : List (Nat × N) × List (Nat × N) × Nat :=
  let count := if ifill + jfill ≤ B then jfill else BHALF - ifill
  if iOnLeft then
    let moved := lj.take count
    (li ++ moved, (lj.drop count).take (jfill - count), (moved.map Prod.fst).sum)
  else
    let moved := (lj.drop (jfill - count)).take count
    (moved ++ li, lj.take (jfill - count), (moved.map Prod.fst).sum)

/-- The child-underflow handling of `edit_recurse` (btree.c lines 447-480).
`kids1` already carries the edited child (with its span delta applied) at slot
`i`; `childsize` is the reported new fill of that child, `none` encoding the
`ULONG_MAX` "became empty" sentinel.  Returns the new registry, the new child
list and the upward channel. -/
def underflow_fix (leafLevel : Bool) (bs : BlockSt) (kids1 : List (Nat × N))
    (i : Nat) (childsize : Option Nat) :
    Option (BlockSt × List (Nat × N) × Up) :=
  let fill := kids1.length
  match childsize with
  | none =>
    match kids1.get? i with
    | none => none
    | some (_, ci) =>
      let kids2 := (kids1.set i (0, ci)).eraseIdx i
      let up := if fill - 1 < BHALF ∧ fill - 1 ≠ 0 then Up.under (fill - 1) else Up.fit
      some (bs, kids2, up)
  | some k =>
    let j := if 0 < i then i - 1 else i + 1
    match kids1.get? i, kids1.get? j with
    | some (si2, ci), some (sj, cj) =>
      let jfill := fillOf cj
      let mb : Option (BlockSt × N × N × Nat × Nat × Int) :=
        if leafLevel then
          match ci, cj with
          | .leaf li, .leaf lj =>
            if i < j then
              let mm := merge_boundary bs li k lj
              if mm.2.2.2 ≠ 0 then
                some (mm.1, .leaf mm.2.1, .leaf mm.2.2.1, k - 1, jfill, -(mm.2.2.2 : Int))
              else some (bs, ci, cj, k, jfill, 0)
            else
              let mm := merge_boundary bs lj jfill li
              if mm.2.2.2 ≠ 0 then
                some (mm.1, .leaf mm.2.2.1, .leaf mm.2.1, k, jfill - 1, (mm.2.2.2 : Int))
              else some (bs, ci, cj, k, jfill, 0)
          | _, _ => none
        else some (bs, ci, cj, k, jfill, 0)
      match mb with
      | none => none
      | some (bs2, ci2, cj2, k2, jfill2, sh0) =>
        let reb : Option (N × N × Nat) :=
          match ci2, cj2 with
          | .leaf li, .leaf lj =>
            let q := rebalance_leaf li lj k2 jfill2 (decide (i < j))
            some (.leaf q.1, .leaf q.2.1, q.2.2)
          | .inner ki, .inner kj =>
            let q := rebalance_inner ki kj k2 jfill2 (decide (i < j))
            some (.inner q.1, .inner q.2.1, q.2.2)
          | _, _ => none
        match reb with
        | none => none
        | some (ci3, cj3, moved) =>
          let shifted : Int := sh0 + (moved : Int)
          let si3 := ((si2 : Int) + shifted).toNat
          let sj3 := ((sj : Int) - shifted).toNat
          let kids2 := (kids1.set i (si3, ci3)).set j (sj3, cj3)
          if sj3 == 0 then
            let kids3 := kids2.eraseIdx j
            let up := if fill - 1 < BHALF ∧ fill - 1 ≠ 0 then Up.under (fill - 1) else Up.fit
            some (bs2, kids3, up)
          else some (bs2, kids2, Up.fit)
    | _, _ => none

/-- `edit_recurse` (btree.c lines 405-485), parameterised by the leaf base
case exactly as the C is (`leaf_case base_case`).  Descend by prefix sum,
apply the child's delta to the cached span, then handle child overflow
(insert the split child, splitting this node if full) or child underflow
(`underflow_fix`).  `ensure_node_editable` on the descent path is
value-preserving and hence implicit. -/
def edit_recurse (base : BlockSt → List Slice → Nat → Int → Option EditRes) :
    Nat → BlockSt → N → Nat → Int → Option EditRes
  | 1, bs, .leaf ss, pos, span => base bs ss pos span
  | lp + 2, bs, .inner kids, pos, span =>
    let r := node_offset (kids.map Prod.fst) pos
    let i := r.1
    let posr := r.2
    match kids.get? i with
    | none => none
    | some (si, child) =>
      match edit_recurse base (lp + 1) bs child posr span with
      | none => none
      | some out =>
        let si2 := ((si : Int) + out.delta).toNat
        let kids1 := kids.set i (si2, out.node)
        match out.up with
        | Up.fit =>
          some ⟨out.bs, .inner kids1, out.spanOut, out.spanOut, out.lfs, Up.fit⟩
        | Up.split childsplit childsize =>
          let i2 := i + 1
          let fill := kids1.length
          if fill == B then
            let pivot := B / 2 + (if i2 > B / 2 then 1 else 0)
            let leftK := kids1.take pivot
            let rightK := kids1.drop pivot
            let szR := (rightK.map Prod.fst).sum
            if i2 > B / 2 then
              some ⟨out.bs, .inner leftK, out.spanOut - szR - childsize, out.spanOut,
                    out.lfs,
                    Up.split (.inner (insertAt rightK (i2 - pivot) (childsize, childsplit)))
                      (szR + childsize)⟩
            else
              some ⟨out.bs, .inner (insertAt leftK i2 (childsize, childsplit)),
                    out.spanOut - szR, out.spanOut, out.lfs, Up.split (.inner rightK) szR⟩
          else
            some ⟨out.bs, .inner (insertAt kids1 i2 (childsize, childsplit)),
                  out.spanOut, out.spanOut, out.lfs, Up.fit⟩
        | Up.emptied =>
          (underflow_fix (lp == 0) out.bs kids1 i none).map
            (fun q => ⟨q.1, .inner q.2.1, out.spanOut, out.spanOut, out.lfs, q.2.2⟩)
        | Up.under k =>
          (underflow_fix (lp == 0) out.bs kids1 i (some k)).map
            (fun q => ⟨q.1, .inner q.2.1, out.spanOut, out.spanOut, out.lfs, q.2.2⟩)
  | _, _, _, _, _ => none

/-- The post-recursion fixups shared by `st_insert` (btree.c lines 675-691)
and the `st_delete` loop body (lines 910-926): root underflow collapses a
single-child root, a root split grows a fresh root whose first span is the
current `st_size`. -/
def root_fixups (levels : Nat) (out : EditRes) : SliceTable :=
  let st1 : SliceTable := ⟨out.node, out.bs, levels⟩
  let st2 :=
    if levels > 1 && fillOf out.node == 1 then
      match out.node with
      | .inner ((_, c) :: _) => (⟨c, out.bs, levels - 1⟩ : SliceTable)
      | _ => st1
    else st1
  match out.up with
  | Up.split n sz =>
    ⟨.inner [(st_size st2, st2.root), (sz, n)], st2.blocks, st2.levels + 1⟩
  | _ => st2

/-- `st_insert` (btree.c lines 661-693).  Returns the new table and the
newline count of the inserted data, `none` where the C crashes (the
big-insertion block registration with an empty block list). -/
def st_insert (st : SliceTable) (pos : Nat) (data : List Nat) :
    Option (SliceTable × Nat) :=
  if data.length = 0 then some (st, 0)
  else
    match edit_recurse (insert_leaf data) st.levels st.blocks st.root pos
        (data.length : Int) with
    | none => none
    | some out => some (root_fixups st.levels out, out.lfs)

/-- The do-while loop of `st_delete` (btree.c lines 901-928), fuelled by the
number of bytes left to delete: each pass deletes at least one byte from a
well-formed tree, so `len` passes always suffice (claim C10); `none` means
the fuel ran out or a descent failed.  Note the newline count of an earlier
pass is overwritten, not accumulated, exactly as the C assigns
`*(size_t *)ctx = lfs` into the same variable each pass. -/
def st_delete_loop : Nat → SliceTable → Nat → Nat → Option (SliceTable × Nat)
  | 0, _, _, _ => none
  | fuel + 1, st, pos, len =>
    match edit_recurse delete_leaf st.levels st.blocks st.root (pos + 1)
        (-(len : Int)) with
    | none => none
    | some out =>
      let len2 := (((len : Int) + out.spanOut)).toNat
      let st3 := root_fixups st.levels out
      if len2 > 0 then st_delete_loop fuel st3 pos len2
      else some (st3, out.lfs)

/-- `st_delete` (btree.c lines 888-931): clamp the length to the available
bytes, then run the deletion loop. -/
def st_delete (st : SliceTable) (pos len0 : Nat) : Option (SliceTable × Nat) :=
  let len := min len0 (st_size st - pos)
  if len = 0 then some (st, 0)
  else st_delete_loop len st pos len


/-- `#define STACKSIZE 3` (btree.c line 940). -/
def STACKSIZE : Nat := 3

/-- One ancestor frame of the iterator stack (`struct stackentry`, btree.c
lines 935-938): the inner node's live slots and the slot index. -/
structure Frame where
  kids : List (Nat × N)
  idx : Nat

/-- `struct sliceiter` (btree.c lines 941-949).  The `data` pointer is
recovered from `(leaf, node_offset, off)`, since it always equals
`leaf->child[node_offset] + off`. -/
structure SliceIter where
  st : SliceTable
  pos : Nat
  leaf : List Slice
  node_offset : Nat
  off : Nat
  stack : List Frame

/-- `iter_stacksize` (btree.c lines 1003-1006). -/
def iter_stacksize (it : SliceIter) : Nat := min (it.st.levels - 1) STACKSIZE

/-- The descent scan of `st_iter_to` (btree.c lines 963-965, 977-979):
`while(pos && pos >= node->spans[i]) pos -= spans[i++];` — lands on the slot
containing byte `pos`, with the in-slot offset. -/
def iter_scan : List Nat → Nat → Nat × Nat
  | [], pos => (0, pos)
  | s :: rest, pos =>
    if pos ≠ 0 ∧ pos ≥ s then
      let r := iter_scan rest (pos - s)
      (r.1 + 1, r.2)
    else (0, pos)

/-- The root-to-leaf descent of `st_iter_to` (btree.c lines 960-983),
collecting the bottom `STACKSIZE` ancestor frames (`stack[level-2]` is written
only when `level - 2 < STACKSIZE`).  Returns the frames (index `k` holding the
level `k+2` ancestor), the leaf slots, the leaf slot index and in-slot
offset. -/
def iter_descend : Nat → N → Nat → Option (List Frame × List Slice × Nat × Nat)
  | 1, .leaf ss, pos =>
    let r := iter_scan (ss.map List.length) pos
    some ([], ss, r.1, r.2)
  | lp + 2, .inner kids, pos =>
    let r := iter_scan (kids.map Prod.fst) pos
    match kids.get? r.1 with
    | none => none
    | some (_, c) =>
      match iter_descend (lp + 1) c r.2 with
      | none => none
      | some (frames, ss, li, lo) =>
        some (if lp < STACKSIZE then frames ++ [⟨kids, r.1⟩] else frames, ss, li, lo)
  | _, _, _ => none

/-- `st_iter_to` (btree.c lines 951-994): position the cursor, seeking
`pos - 1` when positioned at the very end and bumping the offset back. -/
def st_iter_to (st : SliceTable) (pos : Nat) : Option SliceIter :=
  let size := st_size st
  let off_end := pos == size
  let pos2 := if pos > 0 then (if off_end then pos - 1 else pos) else pos
  match iter_descend st.levels st.root pos2 with
  | none => none
  | some (frames, ss, li, lo) =>
    let off := if size > 0 && off_end then lo + 1 else lo
    some ⟨st, pos, ss, li, off, frames⟩

/-- `st_iter_new` (btree.c lines 996-1001). -/
def st_iter_new (st : SliceTable) (pos : Nat) : Option SliceIter :=
  st_iter_to st pos

/-- `iter_off_end` (btree.c lines 1018-1021). -/
def iter_off_end (it : SliceIter) : Bool :=
  match it.leaf.get? it.node_offset with
  | some s => it.off == s.length
  | none => false

/-- The climb condition of `st_iter_next_chunk` (btree.c line 1039):
`s.idx < B-1 && s.node->spans[s.idx+1] != ULONG_MAX`. -/
def frameHasNext (f : Frame) : Bool :=
  decide (f.idx < B - 1) && (f.kids.get? (f.idx + 1)).isSome

/-- The climb loop of `st_iter_next_chunk` (btree.c lines 1036-1040): the
first stack index whose frame has a next slot, `none` when the stack is
insufficient. -/
def climbFind : List Frame → Nat → Option Nat
  | [], _ => none
  | f :: rest, si => if frameHasNext f then some si else climbFind rest (si + 1)

/-- Child node at slot `i`. -/
def childNodeAt (kids : List (Nat × N)) (i : Nat) : Option N :=
  (kids.get? i).map Prod.snd

/-- The walk-back-down loop of `st_iter_next_chunk` (btree.c lines
1044-1047): `while(--si > 0) { stack[si].node = stack[si+1].node->child[0];
stack[si].idx = 0; }` — run for indices `k, k-1, ..., 1`, each entry rebuilt
from `child[0]` of the entry above it; `stack[0]` is never rewritten. -/
def walk_down_go (stack : List Frame) : Nat → Option (List Frame)
  | 0 => some stack
  | kk + 1 =>
    match stack.get? (kk + 2) with
    | none => none
    | some fAbove =>
      match childNodeAt fAbove.kids 0 with
      | some (.inner kidsBelow) =>
        walk_down_go (stack.set (kk + 1) ⟨kidsBelow, 0⟩) kk
      | _ => none

/-- `st_iter_next_chunk` (btree.c lines 1023-1059): advance `pos` past the
current chunk, move within the leaf when possible, otherwise climb the stack,
bump the first frame with a next slot, walk back down, and take
`stack[0].node->child[stack[0].idx]` as the new leaf; fall back to a root
descent when the stack is insufficient. -/
def st_iter_next_chunk (it : SliceIter) : Option (SliceIter × Bool) :=
  match it.leaf.get? it.node_offset with
  | none => none
  | some cur =>
    let pos2 := it.pos + (cur.length - it.off)
    if decide (it.node_offset < B - 1) && (it.leaf.get? (it.node_offset + 1)).isSome then
      some ({ it with pos := pos2, node_offset := it.node_offset + 1, off := 0 }, true)
    else
      match climbFind it.stack 0 with
      | some si =>
        match it.stack.get? si with
        | none => none
        | some f =>
          let stack1 := it.stack.set si ⟨f.kids, f.idx + 1⟩
          match walk_down_go stack1 (si - 1) with
          | none => none
          | some stack2 =>
            match stack2.get? 0 with
            | none => none
            | some f0 =>
              match childNodeAt f0.kids f0.idx with
              | some (.leaf ss) =>
                some ({ it with
                          pos := pos2
                          leaf := ss
                          node_offset := 0
                          off := 0
                          stack := stack2 }, true)
              | _ => none
      | none =>
        match st_iter_to it.st pos2 with
        | none => none
        | some it2 => some (it2, !iter_off_end it2)

/-- `st_iter_chunk` (btree.c lines 1102-1106): the current chunk is the whole
slice under the cursor (`data - off`, length `spans[node_offset]`). -/
def st_iter_chunk (it : SliceIter) : Option Slice := it.leaf.get? it.node_offset

/-- The iteration procedure of the iterator-coherence property: collect the
current chunk, advance, stop when `st_iter_next_chunk` returns false.  Fuelled;
`none` means a failed read or fuel exhaustion. -/
def iter_chunks_go : Nat → SliceIter → List Slice → Option (List Slice)
  | 0, _, _ => none
  | fuel + 1, it, acc =>
    match st_iter_chunk it with
    | none => none
    | some ch =>
      match st_iter_next_chunk it with
      | none => none
      | some (it2, cont) =>
        if cont then iter_chunks_go fuel it2 (ch :: acc)
        else some (ch :: acc).reverse

/-- The chunk sequence visited from `st_iter_new(st, 0)` by repeated
`st_iter_next_chunk` until it returns false. -/
def iter_chunks (st : SliceTable) (fuel : Nat) : Option (List Slice) :=
  match st_iter_new st 0 with
  | none => none
  | some it => iter_chunks_go fuel it []

/-- Concatenation of the chunks visited from `st_iter_new(st, 0)` by repeated
`st_iter_next_chunk` until it returns false. -/
def iter_concat (st : SliceTable) (fuel : Nat) : Option (List Nat) :=
  (iter_chunks st fuel).map List.flatten

mutual

/-- The in-order slice sequence of a tree: the chunks `st_dump` emits, leaf by
leaf. -/
def chunksOf : N → List Slice
  | .leaf ss => ss
  | .inner kids => kidsChunks kids

/-- In-order slice sequence of an inner node's child list. -/
def kidsChunks : List (Nat × N) → List Slice
  | [] => []
  | k :: ks => chunksOf k.2 ++ kidsChunks ks

end

/-- Shape agreement between a node and its level: leaves live exactly at level
1, an inner node at level `l + 2` has all children at level `l + 1`.  This is
the structural fact that the `levels` field of a slicetable describes the tree
(all leaves at equal depth). -/
def shapeB : N → Nat → Bool
  | .leaf _, 1 => true
  | .inner kids, l + 2 => kids.all (fun k => shapeB k.2 (l + 1))
  | _, _ => false


/-- `ULONG_MAX`: the value `(size_t)-1` that `size_t len = lseek(fd, 0,
SEEK_END)` takes when `lseek` fails with EBADF on the invalid descriptor `-1`
returned by a failed `open`. -/
def UMAX : Nat := 2 ^ 64 - 1

/-- The POSIX environment one `st_new_from_file` call runs against: the return
value of `open(path, O_RDONLY)` (`-1` on failure), the bytes of the opened
file (governing `lseek(fd, 0, SEEK_END)` and `read`), whether `read` returns
fewer bytes than requested (short read), and whether `mmap` succeeds on a
valid descriptor. -/
structure Os where
  openRet : Int
  file : List Nat
  shortRead : Bool
  mmapOk : Bool

/-- `lseek(fd, 0, SEEK_END)` as assigned to `size_t len`: the file length on
a valid descriptor, `(size_t)-1` (EBADF) on the failed-open descriptor. -/
def lseekEnd (os : Os) : Nat :=
  if os.openRet ≥ 0 then os.file.length else UMAX

/-- `st_new_from_file` (btree.c lines 224-266) over the `Os` environment.
Returns the constructed table (`none` for the C `NULL`) together with the
number of heap objects still allocated on return (the transient
`malloc(HIGH_WATER)` read buffer is freed before the short-read `return
NULL`, so every failing path returns with 0).  The `if(!fd)` check only
catches a descriptor equal to 0, not the `-1` of a failed `open`; a failed
open falls through, `lseek` yields `(size_t)-1 > HIGH_WATER`, and the mmap
branch's `MAP_FAILED` check (EBADF on the bad descriptor) produces the
`NULL`. -/
def st_new_from_file (os : Os) : Option SliceTable × Nat :=
  if os.openRet = 0 then (none, 0)
  else
    let len := lseekEnd os
    if len = 0 then (some st_new, 0)
    else if len ≤ HIGH_WATER then
      if os.shortRead then (none, 0)
      else
        (some ⟨.leaf [os.file],
               pushBlock { head := none, nxt := [], fresh := 0 }, 1⟩, 3)
    else
      if os.openRet ≥ 0 ∧ os.mmapOk then
        (some ⟨.leaf [os.file],
               pushBlock { head := none, nxt := [], fresh := 0 }, 1⟩, 3)
      else (none, 0)

/-- The failing input of claim C6: a table holding one large slice borrowed
from block 0, with two registered blocks (list head 1, then 0). -/
def c6st : SliceTable :=
  ⟨.leaf [List.replicate 1025 65],
   { head := some 1, nxt := [(1, some 0), (0, none)], fresh := 2 }, 1⟩


/-- A well-formed single-leaf table whose slice contains a NUL byte:
`st_dump` prints only the NUL-free prefix of the slice. -/
def c3bug : SliceTable :=
  ⟨.leaf [[65, 0, 66]], { head := none, nxt := [], fresh := 0 }, 1⟩

/-- The failing input of claim C4: a two-leaf rope whose left leaf holds three
newline bytes.  (The newline-count defect of `st_delete` does not depend on
node fills, only on the deletion spanning two leaves, so the smallest
two-leaf rope suffices to evaluate it.) -/
def c4small : SliceTable :=
  ⟨.inner [(3, .leaf [[10, 10, 10]]), (3, .leaf [[1, 2, 3]])],
   { head := none, nxt := [], fresh := 0 }, 2⟩

/-- The failing input of claim C9: a three-level tree with all leaves at equal
depth (`shapeB` holds).  The stack walk-down defect of `st_iter_next_chunk`
depends only on the cursor crossing a level-2 subtree boundary, not on node
fills, so this smallest three-level tree exercises exactly the same code
path as a full B-tree. -/
def c9small : SliceTable :=
  ⟨.inner [(2, .inner [(1, .leaf [[1]]), (1, .leaf [[2]])]),
           (2, .inner [(1, .leaf [[3]]), (1, .leaf [[4]])])],
   { head := none, nxt := [], fresh := 0 }, 3⟩

/-- Total byte length of a leaf's slots. -/
def leafLen (ss : List Slice) : Nat := (ss.map List.length).sum

mutual

/-- Deep fill bound: every node of the tree has at most `B` live slots.  In C
this holds by construction (the slot arrays have `B` elements); the list model
states it as an explicit representability condition. -/
def fillsLeB : N → Bool
  | .leaf ss => decide (ss.length ≤ B)
  | .inner kids => decide (kids.length ≤ B) && fillsLeBKids kids

/-- `fillsLeB` over a child list. -/
def fillsLeBKids : List (Nat × N) → Bool
  | [] => true
  | k :: ks => fillsLeB k.2 && fillsLeBKids ks

end

/-- The well-formedness invariant `st_delete` maintains, relative to a level
and a root flag: leaves live at level 1 with nonempty slices, every node's
fill is at most `B` and at least `BHALF` (2 for an inner root, anything for a
leaf root), and every cached span equals the content length of its subtree. -/
inductive WfN : N → Nat → Bool → Prop where
  | leaf : ∀ (ss : List Slice) (isRoot : Bool),
      (∀ s ∈ ss, s ≠ []) → (isRoot = true ∨ BHALF ≤ ss.length) →
      ss.length ≤ B → WfN (.leaf ss) 1 isRoot
  | inner : ∀ (kids : List (Nat × N)) (l : Nat) (isRoot : Bool),
      (if isRoot then 2 else BHALF) ≤ kids.length → kids.length ≤ B →
      (∀ k ∈ kids, k.1 = contentLen k.2) →
      (∀ k ∈ kids, WfN k.2 (l + 1) false) →
      WfN (.inner kids) (l + 2) isRoot

/-- Well-formedness except for the node's own minimum fill: what a node
satisfies right after an edit, before its parent has rebalanced it. -/
def WfTop : N → Nat → Prop
  | .leaf ss, l => l = 1 ∧ (∀ s ∈ ss, s ≠ []) ∧ ss.length ≤ B
  | .inner kids, l =>
      (∃ l2, l = l2 + 2 ∧
        (∀ k ∈ kids, k.1 = contentLen k.2) ∧ ∀ k ∈ kids, WfN k.2 (l2 + 1) false) ∧
      kids.length ≤ B

/-- Content carried away by the upward channel: the split node's size. -/
def upLen : Up → Nat
  | .split _ sz => sz
  | _ => 0

/-- What each upward channel value promises about the node `n` that replaces
the original node `orig` (of the given level) and about the split sibling. -/
def delUp (level : Nat) (orig n : N) : Up → Prop
  | .fit => BHALF ≤ fillOf n ∨ fillOf orig ≤ fillOf n
  | .under k => fillOf n = k ∧ 1 ≤ k ∧ k < BHALF
  | .emptied => fillOf n = 0 ∧ ∃ ss, n = N.leaf ss
  | .split n2 sz => BHALF ≤ fillOf n ∧ WfN n2 level false ∧ sz = contentLen n2

/-! ## Theorems

Helper lemmas first, then the claim theorems (each with its claim id). -/

theorem queueWeight_append (a b : List N) :
    queueWeight (a ++ b) = queueWeight a + queueWeight b := by
  induction a with
  | nil => simp [queueWeight]
  | cons n q ih => simp [queueWeight, ih, Nat.add_assoc]

theorem kidsWeight_eq_queueWeight (kids : List (Nat × N)) :
    kidsWeight kids = queueWeight (kids.map Prod.snd) := by
  induction kids with
  | nil => rfl
  | cons k ks ih => simp [kidsWeight, queueWeight, ih]

theorem treeWeight_leaf (ss : List Slice) : treeWeight (N.leaf ss) = 1 := by
  simp [treeWeight]

theorem treeWeight_inner (kids : List (Nat × N)) :
    treeWeight (N.inner kids) = 1 + kidsWeight kids := by
  simp [treeWeight]

theorem treeWeight_pos (n : N) : 1 ≤ treeWeight n := by
  cases n with
  | leaf ss => simp [treeWeight_leaf]
  | inner kids => simp [treeWeight_inner]

theorem dumpQgo_congr : ∀ (f1 f2 : Nat) (q : List N), queueWeight q ≤ f1 →
    queueWeight q ≤ f2 → dumpQgo f1 q = dumpQgo f2 q := by
  intro f1
  induction f1 with
  | zero =>
    intro f2 q h1 _
    cases q with
    | nil => cases f2 <;> simp [dumpQgo]
    | cons n q' =>
      exfalso
      have := treeWeight_pos n
      simp [queueWeight] at h1
      omega
  | succ f ih =>
    intro f2 q h1 h2
    cases q with
    | nil => cases f2 <;> simp [dumpQgo]
    | cons n q' =>
      have hw := treeWeight_pos n
      cases f2 with
      | zero =>
        exfalso
        simp [queueWeight] at h2
        omega
      | succ f2' =>
        cases n with
        | leaf ss =>
          simp only [dumpQgo]
          rw [ih f2' q' ?_ ?_]
          · simp [queueWeight, treeWeight_leaf] at h1; omega
          · simp [queueWeight, treeWeight_leaf] at h2; omega
        | inner kids =>
          simp only [dumpQgo]
          apply ih
          · simp only [queueWeight, treeWeight_inner] at h1
            rw [queueWeight_append, ← kidsWeight_eq_queueWeight]
            omega
          · simp only [queueWeight, treeWeight_inner] at h2
            rw [queueWeight_append, ← kidsWeight_eq_queueWeight]
            omega

theorem dumpQ_nil : dumpQ [] = [] := rfl

theorem dumpQ_leaf (ss : List Slice) (q : List N) :
    dumpQ (.leaf ss :: q) = (ss.map printSlice).flatten ++ dumpQ q := by
  have hq : queueWeight (N.leaf ss :: q) = queueWeight q + 1 := by
    simp [queueWeight, treeWeight_leaf]; omega
  unfold dumpQ
  rw [hq]
  simp [dumpQgo]

theorem dumpQ_inner (kids : List (Nat × N)) (q : List N) :
    dumpQ (.inner kids :: q) = dumpQ (q ++ kids.map Prod.snd) := by
  have hq : queueWeight (N.inner kids :: q)
      = (queueWeight q + kidsWeight kids) + 1 := by
    simp [queueWeight, treeWeight_inner]; omega
  unfold dumpQ
  rw [hq]
  simp only [dumpQgo]
  apply dumpQgo_congr
  · rw [queueWeight_append, ← kidsWeight_eq_queueWeight]
  · exact Nat.le_refl _


theorem shapeB_zero (n : N) : shapeB n 0 = false := by
  cases n <;> rfl

theorem dumpQ_leaves : ∀ q : List N, (∀ n ∈ q, shapeB n 1 = true) →
    dumpQ q = (q.map printedOf).flatten := by
  intro q
  induction q with
  | nil => intro _; rfl
  | cons n q' ih =>
    intro hq
    cases n with
    | leaf ss =>
      rw [dumpQ_leaf]
      simp only [List.map_cons, List.flatten_cons]
      rw [ih (fun m hm => hq m (List.mem_cons_of_mem _ hm))]
      rfl
    | inner kids =>
      exfalso
      have := hq (.inner kids) (List.mem_cons_self _ _)
      simp [shapeB] at this

theorem kidsContent2_eq_map (ks : List (Nat × N)) :
    kidsContent2 ks = ((ks.map Prod.snd).map contentOf).flatten := by
  induction ks with
  | nil => rfl
  | cons k ks ih => simp [kidsContent2, ih]

theorem kidsPrinted_eq_map (ks : List (Nat × N)) :
    kidsPrinted ks = ((ks.map Prod.snd).map printedOf).flatten := by
  induction ks with
  | nil => rfl
  | cons k ks ih => simp [kidsPrinted, ih]

theorem dumpQ_mixed (l : Nat)
    (IH : ∀ q : List N, (∀ n ∈ q, shapeB n (l + 1) = true) →
      dumpQ q = (q.map printedOf).flatten) :
    ∀ (A C : List N), (∀ n ∈ A, shapeB n (l + 2) = true) →
      (∀ n ∈ C, shapeB n (l + 1) = true) →
      dumpQ (A ++ C) = (C.map printedOf).flatten ++ (A.map printedOf).flatten := by
  intro A
  induction A with
  | nil =>
    intro C _ hC
    simpa using IH C hC
  | cons a A2 ihA =>
    intro C hA hC
    cases a with
    | leaf ss =>
      exfalso
      have := hA _ (List.mem_cons_self _ _)
      simp [shapeB] at this
    | inner kids =>
      have hkids : ∀ m ∈ kids.map Prod.snd, shapeB m (l + 1) = true := by
        intro m hm
        have ha := hA _ (List.mem_cons_self _ _)
        simp only [shapeB, List.all_eq_true] at ha
        obtain ⟨k, hk, rfl⟩ := List.mem_map.mp hm
        exact ha k hk
      have hstep : (N.inner kids :: A2) ++ C = N.inner kids :: (A2 ++ C) := rfl
      rw [hstep, dumpQ_inner, List.append_assoc,
        ihA (C ++ kids.map Prod.snd)
          (fun n hn => hA n (List.mem_cons_of_mem _ hn))
          (fun n hn => by
            rcases List.mem_append.mp hn with h | h
            exacts [hC n h, hkids n h])]
      simp [kidsPrinted_eq_map, printedOf]

theorem dumpQ_uniform : ∀ (h : Nat) (q : List N), (∀ n ∈ q, shapeB n h = true) →
    dumpQ q = (q.map printedOf).flatten := by
  intro h
  induction h with
  | zero =>
    intro q hq
    cases q with
    | nil => rfl
    | cons n q' =>
      exfalso
      have := hq n (List.mem_cons_self _ _)
      rw [shapeB_zero] at this
      exact Bool.noConfusion this
  | succ h2 ih =>
    cases h2 with
    | zero => exact dumpQ_leaves
    | succ l =>
      intro q hq
      simpa using dumpQ_mixed l ih q [] hq (by simp)

theorem st_dump_eq_printedOf (st : SliceTable)
    (h : shapeB st.root st.levels = true) : st_dump st = printedOf st.root := by
  have := dumpQ_uniform st.levels [st.root] (by simpa using h)
  simpa [st_dump] using this

mutual

theorem contentOf_eq_chunks : ∀ n : N, contentOf n = (chunksOf n).flatten
  | .leaf ss => by simp [contentOf, chunksOf]
  | .inner kids => by
    simp only [contentOf, chunksOf]
    exact kidsContent2_eq_chunks kids

theorem kidsContent2_eq_chunks : ∀ ks : List (Nat × N),
    kidsContent2 ks = (kidsChunks ks).flatten
  | [] => by simp [kidsContent2, kidsChunks]
  | k :: ks => by
    simp only [kidsContent2, kidsChunks, List.flatten_append]
    rw [contentOf_eq_chunks k.2, kidsContent2_eq_chunks ks]

end

mutual

theorem check_shape : ∀ (n : N) (h l : Nat), check_recurse n h l = true →
    shapeB n l = true
  | .leaf ss, h, l, hc => by
    simp only [check_recurse] at hc
    split at hc
    · next hl =>
      have : l = 1 := by simpa using hl
      subst this
      rfl
    · exact absurd hc (by simp)
  | .inner kids, h, l, hc => by
    simp only [check_recurse] at hc
    split at hc
    · exact absurd hc (by simp)
    · next hl1 =>
      rw [Bool.and_eq_true] at hc
      have hkids := checkKids_shape kids h (l - 1) hc.2
      have hne : kids ≠ [] := by
        intro he
        subst he
        have h1 := hc.1
        simp only [List.length_nil, decide_eq_true_eq] at h1
        have hB : BHALF = 8 := by decide
        split at h1 <;> omega
      match kids, hkids, hne with
      | (sp, c) :: ks, hkids, _ =>
        have hc1 : shapeB c (l - 1) = true := hkids (sp, c) (List.mem_cons_self _ _)
        have hl2 : 2 ≤ l := by
          rcases l with _ | _ | l2
          · rw [shapeB_zero] at hc1
            exact absurd hc1 (by simp)
          · simp at hl1
          · omega
        obtain ⟨l2, rfl⟩ : ∃ l2, l = l2 + 2 := ⟨l - 2, by omega⟩
        simp only [shapeB, List.all_eq_true]
        intro k hk
        have := hkids k hk
        simpa using this

theorem checkKids_shape : ∀ (ks : List (Nat × N)) (h cl : Nat),
    checkKids ks h cl = true → ∀ k ∈ ks, shapeB k.2 cl = true
  | [], _, _, _ => by intro k hk; cases hk
  | (sp, c) :: ks, h, cl, hc => by
    simp only [checkKids, Bool.and_eq_true] at hc
    intro k hk
    rcases List.mem_cons.mp hk with rfl | hk2
    · exact check_shape c h cl hc.1.1
    · exact checkKids_shape ks h cl hc.2 k hk2

end

mutual

theorem check_spans : ∀ (n : N) (h l : Nat), check_recurse n h l = true →
    node_sum n = contentLen n
  | .leaf ss, _, _, _ => by simp [node_sum, surfaceSpans, contentLen]
  | .inner kids, h, l, hc => by
    simp only [check_recurse] at hc
    split at hc
    · exact absurd hc (by simp)
    · rw [Bool.and_eq_true] at hc
      have := checkKids_spans kids h (l - 1) hc.2
      simpa [node_sum, surfaceSpans, contentLen] using this

theorem checkKids_spans : ∀ (ks : List (Nat × N)) (h cl : Nat),
    checkKids ks h cl = true → (ks.map Prod.fst).sum = kidsContent ks
  | [], _, _, _ => by simp [kidsContent]
  | (sp, c) :: ks, h, cl, hc => by
    simp only [checkKids, Bool.and_eq_true] at hc
    have h1 := check_spans c h cl hc.1.1
    have h2 : node_sum c = sp := by simpa using hc.1.2
    have h3 := checkKids_spans ks h cl hc.2
    simp [kidsContent, ← h1, h2, h3]

end

mutual

theorem contentLen_eq : ∀ n : N, contentLen n = (contentOf n).length
  | .leaf ss => by simp [contentLen, contentOf]
  | .inner kids => by
    simp only [contentLen, contentOf]
    exact kidsContent_eq kids

theorem kidsContent_eq : ∀ ks : List (Nat × N),
    kidsContent ks = (kidsContent2 ks).length
  | [] => by simp [kidsContent, kidsContent2]
  | k :: ks => by
    simp [kidsContent, kidsContent2, contentLen_eq k.2, kidsContent_eq ks]

end

/-- Smallness of a slice: `span <= HIGH_WATER`. -/
def isSmall (s : Slice) : Prop := s.length ≤ HIGH_WATER

/-- The adjacency invariant: no two adjacent slices are both small. -/
def noAdjacentSmall (l : List Slice) : Prop :=
  List.Chain' (fun a b => ¬(isSmall a ∧ isSmall b)) l

theorem slice_insert_append (bs : BlockSt) (t d : Slice) :
    (slice_insert bs t t.length d).2 = t ++ d := by
  simp only [slice_insert, List.take_length, List.drop_length, List.append_nil]
  split <;> rfl

theorem merge_go_spec : ∀ (rest : List Slice) (bs : BlockSt) (done : List Slice),
    List.Chain' (fun a b => ¬(isSmall a ∧ isSmall b)) done →
    (merge_go bs done rest).2.length ≤ done.length + rest.length ∧
    List.Chain' (fun a b => ¬(isSmall a ∧ isSmall b)) (merge_go bs done rest).2 ∧
    (merge_go bs done rest).2.flatten = done.reverse.flatten ++ rest.flatten
  | [], bs, done => by
    intro hd
    have he : merge_go bs done [] = (bs, done.reverse) := rfl
    rw [he]
    refine ⟨by simp, ?_, by simp⟩
    rw [List.chain'_reverse]
    exact hd.imp (fun a b h hab => h ⟨hab.2, hab.1⟩)
  | x :: rs, bs, done => by
    intro hd
    rw [merge_go.eq_def]
    simp only []
    split
    · next hx =>
      have hxL : ¬isSmall x := by simp only [isSmall]; omega
      match rs with
      | [] =>
        refine ⟨by simp, ?_, by simp⟩
        rw [List.chain'_reverse]
        refine (List.chain'_cons'.mpr ⟨fun y _ => fun hab => hxL hab.1, hd⟩).imp
          (fun a b h hab => h ⟨hab.2, hab.1⟩)
      | y :: rs2 =>
        have hdy : List.Chain' (fun a b => ¬(isSmall a ∧ isSmall b)) (y :: x :: done) := by
          refine List.chain'_cons'.mpr ⟨fun z hz => ?_, ?_⟩
          · simp only [List.head?_cons, Option.mem_def, Option.some.injEq] at hz
            subst hz
            exact fun hab => hxL hab.2
          · exact List.chain'_cons'.mpr ⟨fun z _ => fun hab => hxL hab.1, hd⟩
        obtain ⟨hl, hch, hfl⟩ := merge_go_spec rs2 bs (y :: x :: done) hdy
        refine ⟨?_, hch, ?_⟩
        · simp only [List.length_cons] at hl ⊢
          omega
        · rw [hfl]
          simp
    · next hx =>
      have hxS : isSmall x := by simp only [isSmall]; omega
      match done, hd with
      | [], _ =>
        simp only []
        obtain ⟨hl, hch, hfl⟩ := merge_go_spec rs bs [x] (by simp)
        refine ⟨?_, hch, by simpa using hfl⟩
        simp only [List.length_cons, List.length_singleton, List.length_nil] at hl ⊢
        omega
      | prev :: dn, hd =>
        simp only []
        by_cases hp : prev.length ≤ HIGH_WATER
        · rw [if_pos hp]
          have hdm : List.Chain' (fun a b => ¬(isSmall a ∧ isSmall b))
              ((slice_insert bs prev prev.length x).2 :: dn) := by
            refine List.chain'_cons'.mpr ⟨fun z hz => ?_, hd.tail⟩
            have := List.chain'_cons'.mp hd
            exact fun hab => this.1 z hz ⟨hp, hab.2⟩
          obtain ⟨hl, hch, hfl⟩ :=
            merge_go_spec rs (slice_insert bs prev prev.length x).1
              ((slice_insert bs prev prev.length x).2 :: dn) hdm
          refine ⟨?_, hch, ?_⟩
          · simp only [List.length_cons] at hl ⊢
            omega
          · rw [hfl, slice_insert_append]
            simp
        · rw [if_neg hp]
          have hdm : List.Chain' (fun a b => ¬(isSmall a ∧ isSmall b))
              (x :: prev :: dn) :=
            List.chain'_cons'.mpr ⟨fun z hz => by
              simp at hz
              subst hz
              exact fun hab => hp hab.2, hd⟩
          obtain ⟨hl, hch, hfl⟩ := merge_go_spec rs bs (x :: prev :: dn) hdm
          refine ⟨?_, hch, by simpa using hfl⟩
          simp only [List.length_cons] at hl ⊢
          omega

/-- Claim C7: `merge_slices` on a window of up to five slices returns at most
as many slices, the result contains no two adjacent small slices, and the
concatenation of the result's bytes equals the concatenation of the input's
bytes. -/
theorem C7_merge_slices (bs : BlockSt) (l : List Slice) (h5 : l.length ≤ 5) :
    (merge_slices bs l).2.length ≤ l.length ∧
    noAdjacentSmall (merge_slices bs l).2 ∧
    (merge_slices bs l).2.flatten = l.flatten := by
  match l with
  | [] => exact ⟨by simp [merge_slices], by simp [merge_slices, noAdjacentSmall], rfl⟩
  | a :: rest =>
    obtain ⟨hl, hch, hfl⟩ := merge_go_spec rest bs [a] (by simp)
    have he : merge_slices bs (a :: rest) = merge_go bs [a] rest := rfl
    rw [he]
    refine ⟨?_, hch, ?_⟩
    · simp only [List.length_singleton] at hl
      simp only [List.length_cons]
      omega
    · simpa using hfl

/-- Witness for C7 at a concrete five-slice window. -/
theorem C7_witness :
    ([[1], [2], List.replicate 1025 3, [4], [5]].length ≤ 5 : Prop) ∧
    ((merge_slices ⟨none, [], 0⟩ [[1], [2], List.replicate 1025 3, [4], [5]]).2.length ≤
        [[1], [2], List.replicate 1025 3, [4], [5]].length ∧
      noAdjacentSmall (merge_slices ⟨none, [], 0⟩
        [[1], [2], List.replicate 1025 3, [4], [5]]).2 ∧
      (merge_slices ⟨none, [], 0⟩ [[1], [2], List.replicate 1025 3, [4], [5]]).2.flatten =
        [[1], [2], List.replicate 1025 3, [4], [5]].flatten) :=
  ⟨by decide, C7_merge_slices ⟨none, [], 0⟩ [[1], [2], List.replicate 1025 3, [4], [5]]
    (by decide)⟩

/-- Claim C3 (code bug): `st_size` counts every live byte, but `st_dump`
prints each slice with `fprintf("%.*s", (int)span, data)` (btree.c line 1309),
which stops at the first NUL byte; on the well-formed table `c3bug` (single
slice 65, 0, 66) the program emits one byte while `st_size` is 3, so the
claimed equality fails. -/
theorem C3_size_dump_nul :
    st_check_invariants c3bug = true ∧ st_size c3bug = 3 ∧
    st_dump c3bug = [65] ∧ st_size c3bug ≠ (st_dump c3bug).length := by
  refine ⟨by decide, by decide, by decide, by decide⟩

/-- Claim C5: whenever `st_new_from_file` fails — open failed, mmap failed, or
a short read — it returns none and leaves nothing durable allocated; in
particular a failed open (return value `-1`) ends in the none result. -/
theorem C5_new_from_file_failure (os : Os)
    (hfail : os.openRet = -1 ∨
      (0 ≤ os.openRet ∧ 0 < os.file.length ∧ os.file.length ≤ HIGH_WATER ∧
        os.shortRead = true) ∨
      (0 ≤ os.openRet ∧ HIGH_WATER < os.file.length ∧ os.mmapOk = false)) :
    st_new_from_file os = (none, 0) := by
  have hHW : HIGH_WATER = 1024 := by decide
  have hU : UMAX = 2 ^ 64 - 1 := rfl
  rcases hfail with hopen | ⟨hfd, hpos, hsz, hrd⟩ | ⟨hfd, hsz, hmm⟩
  · rw [st_new_from_file, if_neg (by omega)]
    have hlen : lseekEnd os = UMAX := by
      rw [lseekEnd, if_neg (by omega)]
    rw [hlen]
    rw [if_neg (by rw [hU]; omega), if_neg (by rw [hU, hHW]; omega),
      if_neg (by omega)]
  · by_cases h0 : os.openRet = 0
    · rw [st_new_from_file, if_pos h0]
    · rw [st_new_from_file, if_neg h0]
      have hlen : lseekEnd os = os.file.length := by
        rw [lseekEnd, if_pos hfd]
      rw [hlen, if_neg (by omega), if_pos hsz, if_pos hrd]
  · by_cases h0 : os.openRet = 0
    · rw [st_new_from_file, if_pos h0]
    · rw [st_new_from_file, if_neg h0]
      have hlen : lseekEnd os = os.file.length := by
        rw [lseekEnd, if_pos hfd]
      rw [hlen, if_neg (by omega), if_neg (by omega),
        if_neg (by rw [hmm]; simp)]

/-- Witness environment for C5: `open` fails. -/
def c5os : Os := ⟨-1, [7, 8], false, true⟩

/-- Witness for C5 at a concrete failed-open environment. -/
theorem C5_witness : c5os.openRet = -1 ∧ st_new_from_file c5os = (none, 0) :=
  ⟨rfl, C5_new_from_file_failure c5os (Or.inl rfl)⟩

/-- Claim C8 (code bug): `st_clone` applied to the rope produced by `st_new`
(whose block list is empty) executes `incref(&st->blocks->refc)` on a null
pointer and produces no rope at all, instead of the claimed O(1) header copy
with bumped refcounts. -/
theorem C8_clone_of_st_new_crashes : st_clone st_new = none := rfl

/-- Claim C2 (code bug): `st_new` yields a well-formed rope (the checker
holds), yet the public operation `st_clone` on it crashes on the null block
list, so no post-state exists for `st_check_invariants` to hold on. -/
theorem C2_clone_breaks_invariant_claim :
    st_check_invariants st_new = true ∧
    (st_clone st_new).map st_check_invariants = none :=
  ⟨rfl, rfl⟩

/-- Claim C6 (code bug): before the insert, the block list is the acyclic
chain [1, 0].  A slow-path insert of 1025 bytes (> HIGH_WATER) registers its
fresh HEAP block 2 via `new->next = st->blocks; st->blocks->next = new`,
leaving head block 1 and block 2 pointing at each other: the walk from the
head does not terminate within fuel 4 although only 3 blocks exist, and block
0 is no longer on the chain.  On a rope with an empty block list (st_new) the
same store dereferences null: the insert crashes. -/
theorem C6_slow_path_block_list :
    chainFrom c6st.blocks.nxt 4 c6st.blocks.head = some [1, 0] ∧
    (st_insert c6st 0 (List.replicate 1025 66)).map
      (fun p => (p.1.blocks.head, p.1.blocks.nxt,
                 chainFrom p.1.blocks.nxt 4 p.1.blocks.head)) =
      some (some 1, [(2, some 1), (1, some 2), (0, none)], none) ∧
    (st_insert st_new 0 (List.replicate 1025 66)).isSome = false := by
  refine ⟨by decide, by decide, by decide⟩


/-- Claim C4 (code bug): on the two-leaf rope `c4small` (`pos = 1 ≤ st_size =
6`), `st_delete` removes 4 bytes of which 2 are newlines (the dump's newline
count drops from 3 to 1), yet returns newline count 0: each pass of the
do-while loop overwrites the count of the previous pass (`*(size_t *)ctx =
lfs` in `delete_leaf` assigns instead of accumulating), so only the final
leaf's count survives. -/
theorem C4_delete_newline_undercount :
    (1 : Nat) ≤ st_size c4small ∧
    (st_delete c4small 1 4).map
      (fun p => (p.2, count_lfs (st_dump c4small) - count_lfs (st_dump p.1))) =
      some (0, 2) := by
  refine ⟨by decide, by decide⟩

/-- Claim C9 (code bug): on the equal-depth three-level tree `c9small`,
iterating chunks from position 0 until `st_iter_next_chunk` returns false
yields the bytes 1, 2, 2, 4 while `st_dump` yields 1, 2, 3, 4: when the
cursor leaves the last leaf of the first level-2 subtree, `stack[1]` is
bumped but the `while(--si > 0)` walk-down never rewrites `stack[0]`, so the
stale frame re-delivers the same leaf and the next subtree's first leaf is
skipped over by the subsequent position-based fallback. -/
theorem C9_iter_chunks_diverge :
    shapeB c9small.root c9small.levels = true ∧
    iter_concat c9small 20 = some [1, 2, 2, 4] ∧
    st_dump c9small = [1, 2, 3, 4] ∧
    iter_concat c9small 20 ≠ some (st_dump c9small) := by
  refine ⟨by decide, by decide, by decide, by decide⟩

/-! ### List surgery and accounting lemmas for the deletion proof -/

theorem leafLen_nil : leafLen [] = 0 := rfl

theorem leafLen_cons (s : Slice) (l : List Slice) :
    leafLen (s :: l) = s.length + leafLen l := by
  simp [leafLen]

theorem leafLen_append (a b : List Slice) :
    leafLen (a ++ b) = leafLen a + leafLen b := by
  simp [leafLen]

theorem leafLen_flatten (l : List Slice) : leafLen l = l.flatten.length := by
  induction l with
  | nil => rfl
  | cons s l ih => simp [leafLen_cons, ih]

theorem contentLen_leaf (ss : List Slice) : contentLen (N.leaf ss) = leafLen ss := rfl

theorem kidsContent_nil : kidsContent [] = 0 := rfl

theorem kidsContent_cons (k : Nat × N) (ks : List (Nat × N)) :
    kidsContent (k :: ks) = contentLen k.2 + kidsContent ks := rfl

theorem kidsContent_append (a b : List (Nat × N)) :
    kidsContent (a ++ b) = kidsContent a + kidsContent b := by
  induction a with
  | nil => simp [kidsContent]
  | cons k ks ih => simp [kidsContent_cons, ih, Nat.add_assoc]

theorem spans_sum_eq_kidsContent (ks : List (Nat × N))
    (h : ∀ k ∈ ks, k.1 = contentLen k.2) :
    (ks.map Prod.fst).sum = kidsContent ks := by
  induction ks with
  | nil => rfl
  | cons k ks ih =>
    simp only [List.map_cons, List.sum_cons, kidsContent_cons]
    rw [h k (List.mem_cons_self _ _), ih (fun x hx => h x (List.mem_cons_of_mem _ hx))]

theorem get?_append_cons : ∀ (pre : List α) (s : α) (post : List α),
    (pre ++ s :: post).get? pre.length = some s
  | [], _, _ => rfl
  | _ :: pre, s, post => get?_append_cons pre s post

theorem get?_append_cons2 : ∀ (A : List α) (a b : α) (C : List α),
    (A ++ a :: b :: C).get? (A.length + 1) = some b
  | [], _, _, _ => rfl
  | _ :: A, a, b, C => get?_append_cons2 A a b C

theorem set_append_cons : ∀ (pre : List α) (s x : α) (post : List α),
    (pre ++ s :: post).set pre.length x = pre ++ x :: post
  | [], _, _, _ => rfl
  | p :: pre, s, x, post => by
    simp only [List.cons_append, List.length_cons, List.set_cons_succ,
      set_append_cons pre s x post]

theorem set_append_cons2 : ∀ (A : List α) (a b x : α) (C : List α),
    (A ++ a :: b :: C).set (A.length + 1) x = A ++ a :: x :: C
  | [], _, _, _, _ => rfl
  | p :: A, a, b, x, C => by
    simp only [List.cons_append, List.length_cons, List.set_cons_succ,
      set_append_cons2 A a b x C]

theorem eraseIdx_append_cons : ∀ (A : List α) (a : α) (C : List α),
    (A ++ a :: C).eraseIdx A.length = A ++ C
  | [], _, _ => rfl
  | p :: A, a, C => by
    simp only [List.cons_append, List.length_cons, List.eraseIdx_cons_succ,
      eraseIdx_append_cons A a C]

theorem eraseIdx_append_cons2 : ∀ (A : List α) (a b : α) (C : List α),
    (A ++ a :: b :: C).eraseIdx (A.length + 1) = A ++ a :: C
  | [], _, _, _ => rfl
  | p :: A, a, b, C => by
    simp only [List.cons_append, List.length_cons, List.eraseIdx_cons_succ,
      eraseIdx_append_cons2 A a b C]

theorem take_append_cons : ∀ (pre : List α) (s : α) (post : List α),
    (pre ++ s :: post).take pre.length = pre
  | [], _, _ => rfl
  | p :: pre, s, post => by
    simp only [List.cons_append, List.length_cons, List.take_succ_cons,
      take_append_cons pre s post]

theorem drop_append_cons : ∀ (pre : List α) (s : α) (post : List α),
    (pre ++ s :: post).drop pre.length = s :: post
  | [], _, _ => rfl
  | p :: pre, s, post => by
    simp only [List.cons_append, List.length_cons, List.drop_succ_cons,
      drop_append_cons pre s post]

theorem drop_append_cons2 : ∀ (pre : List α) (s : α) (post : List α),
    (pre ++ s :: post).drop (pre.length + 1) = post
  | [], _, _ => rfl
  | p :: pre, s, post => by
    simp only [List.cons_append, List.length_cons, List.drop_succ_cons,
      drop_append_cons2 pre s post]

/-! ### `node_offset` decomposition lemmas -/

theorem node_offset_slices : ∀ (ss : List Slice) (key : Nat), 1 ≤ key →
    key ≤ leafLen ss →
    ∃ pre s post, ss = pre ++ s :: post ∧
      (node_offset (ss.map List.length) key).1 = pre.length ∧
      (node_offset (ss.map List.length) key).2 = key - leafLen pre ∧
      leafLen pre < key ∧ key ≤ leafLen pre + s.length
  | [], key, h1, h2 => by
    exfalso
    rw [leafLen_nil] at h2
    omega
  | s :: rest, key, h1, h2 => by
    rw [leafLen_cons] at h2
    by_cases hs : s.length < key
    · obtain ⟨pre, t, post, hdec, hi, hr, hlt, hle⟩ :=
        node_offset_slices rest (key - s.length) (by omega) (by omega)
      refine ⟨s :: pre, t, post, by rw [hdec]; rfl, ?_, ?_, ?_, ?_⟩
      · simp only [List.map_cons, node_offset, if_pos hs, hi, List.length_cons]
      · simp only [List.map_cons, node_offset, if_pos hs, hr, leafLen_cons]
        omega
      · rw [leafLen_cons]; omega
      · rw [leafLen_cons]; omega
    · refine ⟨[], s, rest, rfl, ?_, ?_, ?_, ?_⟩
      · simp [node_offset, hs]
      · simp [node_offset, hs, leafLen_nil]
      · rw [leafLen_nil]; omega
      · rw [leafLen_nil]; omega

theorem node_offset_kids : ∀ (kids : List (Nat × N)) (key : Nat), 1 ≤ key →
    key ≤ ((kids.map Prod.fst).sum) →
    ∃ pre k post, kids = pre ++ k :: post ∧
      (node_offset (kids.map Prod.fst) key).1 = pre.length ∧
      (node_offset (kids.map Prod.fst) key).2 = key - (pre.map Prod.fst).sum ∧
      (pre.map Prod.fst).sum < key ∧ key ≤ (pre.map Prod.fst).sum + k.1
  | [], key, h1, h2 => by
    exfalso
    simp only [List.map_nil, List.sum_nil] at h2
    omega
  | k :: rest, key, h1, h2 => by
    simp only [List.map_cons, List.sum_cons] at h2
    by_cases hs : k.1 < key
    · obtain ⟨pre, t, post, hdec, hi, hr, hlt, hle⟩ :=
        node_offset_kids rest (key - k.1) (by omega) (by omega)
      refine ⟨k :: pre, t, post, by rw [hdec]; rfl, ?_, ?_, ?_, ?_⟩
      · simp only [List.map_cons, node_offset, if_pos hs, hi, List.length_cons]
      · simp only [List.map_cons, node_offset, if_pos hs, hr, List.sum_cons]
        omega
      · simp only [List.map_cons, List.sum_cons]; omega
      · simp only [List.map_cons, List.sum_cons]; omega
    · refine ⟨[], k, rest, rfl, ?_, ?_, ?_, ?_⟩
      · simp [node_offset, hs]
      · simp [node_offset, hs]
      · simp; omega
      · simp; omega

/-! ### Corollaries of the merge pass used by the deletion proof -/

theorem merge_go_nonzero : ∀ (rest : List Slice) (bs : BlockSt) (done : List Slice),
    (∀ s ∈ done, s ≠ []) → (∀ s ∈ rest, s ≠ []) →
    ∀ s ∈ (merge_go bs done rest).2, s ≠ []
  | [], bs, done => by
    intro hd _ s hs
    have he : merge_go bs done [] = (bs, done.reverse) := rfl
    rw [he] at hs
    exact hd s (List.mem_reverse.mp hs)
  | x :: rs, bs, done => by
    intro hd hr
    rw [merge_go.eq_def]
    simp only []
    split
    · match rs with
      | [] =>
        intro s hs
        simp only [List.mem_reverse] at hs
        rcases List.mem_cons.mp hs with rfl | hs2
        · exact hr s (List.mem_cons_self _ _)
        · exact hd s hs2
      | y :: rs2 =>
        refine merge_go_nonzero rs2 bs (y :: x :: done) ?_ ?_
        · intro s hs
          rcases List.mem_cons.mp hs with rfl | hs2
          · exact hr s (List.mem_cons_of_mem _ (List.mem_cons_self _ _))
          rcases List.mem_cons.mp hs2 with rfl | hs3
          · exact hr s (List.mem_cons_self _ _)
          · exact hd s hs3
        · intro s hs
          exact hr s (List.mem_cons_of_mem _ (List.mem_cons_of_mem _ hs))
    · match done with
      | [] =>
        simp only []
        refine merge_go_nonzero rs bs [x] ?_ ?_
        · intro s hs
          rcases List.mem_cons.mp hs with rfl | hs2
          · exact hr s (List.mem_cons_self _ _)
          · cases hs2
        · intro s hs
          exact hr s (List.mem_cons_of_mem _ hs)
      | prev :: dn =>
        simp only []
        split
        · refine merge_go_nonzero rs _ _ ?_ ?_
          · intro s hs
            rcases List.mem_cons.mp hs with rfl | hs2
            · rw [slice_insert_append]
              intro he
              exact hd prev (List.mem_cons_self _ _) (List.append_eq_nil.mp he).1
            · exact hd s (List.mem_cons_of_mem _ hs2)
          · intro s hs
            exact hr s (List.mem_cons_of_mem _ hs)
        · refine merge_go_nonzero rs bs (x :: prev :: dn) ?_ ?_
          · intro s hs
            rcases List.mem_cons.mp hs with rfl | hs2
            · exact hr s (List.mem_cons_self _ _)
            · exact hd s hs2
          · intro s hs
            exact hr s (List.mem_cons_of_mem _ hs)

theorem merge_slices_len (bs : BlockSt) (l : List Slice) :
    (merge_slices bs l).2.length ≤ l.length := by
  match l with
  | [] => simp [merge_slices]
  | a :: rest =>
    obtain ⟨hl, _, _⟩ := merge_go_spec rest bs [a] (by simp)
    have he : merge_slices bs (a :: rest) = merge_go bs [a] rest := rfl
    rw [he]
    simp only [List.length_singleton] at hl
    simp only [List.length_cons]
    omega

theorem merge_slices_leafLen (bs : BlockSt) (l : List Slice) :
    leafLen (merge_slices bs l).2 = leafLen l := by
  match l with
  | [] => rfl
  | a :: rest =>
    obtain ⟨_, _, hfl⟩ := merge_go_spec rest bs [a] (by simp)
    have he : merge_slices bs (a :: rest) = merge_go bs [a] rest := rfl
    rw [he, leafLen_flatten, hfl, leafLen_flatten]
    simp

theorem merge_slices_nonzero (bs : BlockSt) (l : List Slice)
    (h : ∀ s ∈ l, s ≠ []) : ∀ s ∈ (merge_slices bs l).2, s ≠ [] := by
  match l with
  | [] => intro s hs; cases hs
  | a :: rest =>
    have he : merge_slices bs (a :: rest) = merge_go bs [a] rest := rfl
    rw [he]
    refine merge_go_nonzero rest bs [a] ?_ ?_
    · intro s hs
      rcases List.mem_cons.mp hs with rfl | hs2
      · exact h s (List.mem_cons_self _ _)
      · cases hs2
    · intro s hs
      exact h s (List.mem_cons_of_mem _ hs)

/-! ### Basic facts about the deletion invariant -/

theorem B_eq : B = 15 := by decide

theorem BHALF_eq : BHALF = 8 := by decide

theorem WfN_one (n : N) (r : Bool) (h : WfN n 1 r) : ∃ ss, n = N.leaf ss := by
  cases h with
  | leaf ss _ _ _ _ => exact ⟨ss, rfl⟩

theorem WfN_inner_level (kids : List (Nat × N)) (l : Nat) (r : Bool)
    (h : WfN (N.inner kids) l r) : 2 ≤ l := by
  cases h with
  | inner _ _ _ _ _ _ _ => omega

theorem WfN_false_le (n : N) (l : Nat) (h : WfN n l false) : BHALF ≤ fillOf n := by
  cases h with
  | leaf ss _ hnz hf hb =>
    simp only [Bool.false_eq_true, false_or] at hf
    exact hf
  | inner kids _ _ hf hb hsp hk => exact hf

theorem WfN_le_B (n : N) (l : Nat) (r : Bool) (h : WfN n l r) : fillOf n ≤ B := by
  cases h with
  | leaf ss _ _ _ hb => exact hb
  | inner kids _ _ _ hb _ _ => exact hb

theorem WfN_to_WfTop (n : N) (l : Nat) (r : Bool) (h : WfN n l r) : WfTop n l := by
  cases h with
  | leaf ss _ hnz _ hb => exact ⟨rfl, hnz, hb⟩
  | inner kids l2 _ _ hb hsp hk => exact ⟨⟨l2, rfl, hsp, hk⟩, hb⟩

theorem WfTop_le_B (n : N) (l : Nat) (h : WfTop n l) : fillOf n ≤ B := by
  cases n with
  | leaf ss => exact h.2.2
  | inner kids => exact h.2

theorem WfTop_to_WfN (n : N) (l : Nat) (h : WfTop n l)
    (hf : BHALF ≤ fillOf n) : WfN n l false := by
  cases n with
  | leaf ss =>
    obtain ⟨hl, hnz, hb⟩ := h
    subst hl
    exact WfN.leaf ss false hnz (Or.inr hf) hb
  | inner kids =>
    obtain ⟨⟨l2, hl, hsp, hk⟩, hb⟩ := h
    subst hl
    exact WfN.inner kids l2 false (by simpa using hf) hb hsp hk

theorem WfN_root_relax (n : N) (l : Nat) (h : WfN n l false) : WfN n l true := by
  cases h with
  | leaf ss _ hnz hf hb => exact WfN.leaf ss true hnz (Or.inl rfl) hb
  | inner kids l2 _ hf hb hsp hk =>
    refine WfN.inner kids l2 true ?_ hb hsp hk
    simp only [if_pos] at hf ⊢
    have := BHALF_eq
    simp only [Bool.false_eq_true, if_false] at hf
    omega

theorem WfN_node_sum (n : N) (l : Nat) (r : Bool) (h : WfN n l r) :
    node_sum n = contentLen n := by
  cases h with
  | leaf ss _ _ _ _ => rfl
  | inner kids _ _ _ _ hsp _ =>
    simp only [node_sum, surfaceSpans, contentLen]
    exact spans_sum_eq_kidsContent kids hsp

theorem WfN_content_pos_aux (n : N) (l : Nat) (r : Bool) (h : WfN n l r)
    (hf1 : 1 ≤ fillOf n) : 1 ≤ contentLen n := by
  induction h with
  | leaf ss isRoot hnz hf hb =>
    match ss, hf1 with
    | s :: rest, _ =>
      have hs := hnz s (List.mem_cons_self _ _)
      rw [contentLen_leaf, leafLen_cons]
      cases s with
      | nil => exact absurd rfl hs
      | cons a t => simp only [List.length_cons]; omega
  | inner kids l2 isRoot hf hb hsp hk ih =>
    match kids, hk, ih with
    | k :: ks, hk, ih =>
      have hwk := hk k (List.mem_cons_self _ _)
      have hfk := WfN_false_le k.2 (l2 + 1) hwk
      have := ih k (List.mem_cons_self _ _) (by rw [BHALF_eq] at hfk; omega)
      simp only [contentLen, kidsContent_cons]
      omega

theorem WfN_content_pos (n : N) (l : Nat) (h : WfN n l false) :
    1 ≤ contentLen n := by
  have hf := WfN_false_le n l h
  exact WfN_content_pos_aux n l false h (by rw [BHALF_eq] at hf; omega)

theorem WfTop_one_leaf (n : N) (h : WfTop n 1) : ∃ ss, n = N.leaf ss := by
  cases n with
  | leaf ss => exact ⟨ss, rfl⟩
  | inner kids =>
    obtain ⟨⟨l2, hl, _, _⟩, _⟩ := h
    omega

theorem WfTop_fill0_content (n : N) (h0 : fillOf n = 0) :
    contentLen n = 0 := by
  cases n with
  | leaf ss =>
    have : ss = [] := List.length_eq_zero.mp h0
    subst this
    rfl
  | inner kids =>
    have : kids = [] := List.length_eq_zero.mp h0
    subst this
    rfl

theorem take_full : ∀ (l : List α) (n : Nat), l.length ≤ n → l.take n = l
  | [], _, _ => by simp
  | a :: l, n, h => by
    cases n with
    | zero => simp at h
    | succ m =>
      simp only [List.take_succ_cons]
      rw [take_full l m (by simpa using h)]

theorem drop_append_cons3 : ∀ (A : List α) (a b : α) (C : List α),
    (A ++ a :: b :: C).drop (A.length + 2) = C
  | [], _, _, _ => rfl
  | p :: A, a, b, C => by
    simp only [List.cons_append, List.length_cons, List.drop_succ_cons]
    exact drop_append_cons3 A a b C

theorem drop_append_cons4 : ∀ (A : List α) (a b c : α) (C : List α),
    (A ++ a :: b :: c :: C).drop (A.length + 3) = C
  | [], _, _, _, _ => rfl
  | p :: A, a, b, c, C => by
    simp only [List.cons_append, List.length_cons, List.drop_succ_cons]
    exact drop_append_cons4 A a b c C

/-- Specification of the whole-slot consuming loop: it removes a prefix of
slots whose total length fits in `len` and stops before a slot that does not
fit entirely. -/
theorem consume_spec : ∀ (len : Nat) (l : List Slice),
    ∃ k, k ≤ l.length ∧
      (consume len l).2.2 = l.drop k ∧
      leafLen (l.take k) ≤ len ∧
      (consume len l).2.1 = len - leafLen (l.take k) ∧
      (∀ s es, l.drop k = s :: es → len - leafLen (l.take k) < s.length)
  | len, [] => by
    refine ⟨0, by simp, rfl, by simp [leafLen_nil], by simp [consume, leafLen_nil], ?_⟩
    intro s es h
    simp at h
  | len, s :: rest => by
    by_cases hc : s.length ≤ len
    · obtain ⟨k, hk, hdrop, htk, hres, hhead⟩ := consume_spec (len - s.length) rest
      refine ⟨k + 1, by simpa using hk, ?_, ?_, ?_, ?_⟩
      · simp only [consume, if_pos hc, List.drop_succ_cons]
        exact hdrop
      · simp only [List.take_succ_cons, leafLen_cons]
        omega
      · simp only [consume, if_pos hc, hres, List.take_succ_cons, leafLen_cons]
        omega
      · intro t es h
        simp only [List.drop_succ_cons] at h
        have := hhead t es h
        simp only [List.take_succ_cons, leafLen_cons]
        omega
    · refine ⟨0, by simp, ?_, by simp [leafLen_nil], ?_, ?_⟩
      · simp [consume, hc]
      · simp [consume, hc, leafLen_nil]
      · intro t es h
        simp only [List.drop_nil, List.drop_zero] at h
        cases h
        simp [leafLen_nil]
        omega

theorem slice_insert_zero (bs : BlockSt) (t d : Slice) :
    (slice_insert bs t 0 d).2 = d ++ t := by
  simp only [slice_insert, List.take_zero, List.drop_zero, List.nil_append]
  split <;> rfl

/-- Specification of `merge_boundary` called with the true fill of its left
list: either nothing happens (moved span 0), or the last slice of `l` moves
onto the front of `r`'s first slice, preserving lengths and every slice
nonempty. -/
theorem merge_boundary_spec (bs : BlockSt) (l r : List Slice)
    (hl : 1 ≤ l.length) (hr : 1 ≤ r.length)
    (hnzl : ∀ s ∈ l, s ≠ []) (hnzr : ∀ s ∈ r, s ≠ []) :
    (merge_boundary bs l l.length r).2.2.2 = 0 ∧
      (merge_boundary bs l l.length r).2.1 = l ∧
      (merge_boundary bs l l.length r).2.2.1 = r ∨
    1 ≤ (merge_boundary bs l l.length r).2.2.2 ∧
      (merge_boundary bs l l.length r).2.1.length + 1 = l.length ∧
      (merge_boundary bs l l.length r).2.2.1.length = r.length ∧
      leafLen (merge_boundary bs l l.length r).2.1 +
        (merge_boundary bs l l.length r).2.2.2 = leafLen l ∧
      leafLen (merge_boundary bs l l.length r).2.2.1 =
        leafLen r + (merge_boundary bs l l.length r).2.2.2 ∧
      (∀ s ∈ (merge_boundary bs l l.length r).2.1, s ≠ []) ∧
      (∀ s ∈ (merge_boundary bs l l.length r).2.2.1, s ≠ []) := by
  rcases List.eq_nil_or_concat l with rfl | ⟨L, a, rfl⟩
  · simp at hl
  simp only [List.concat_eq_append] at hnzl ⊢
  match r, hr with
  | b :: rt, _ =>
    have hga : (L ++ [a]).get? ((L ++ [a]).length - 1) = some a := by
      have : (L ++ [a]).length - 1 = L.length := by simp
      rw [this]
      exact get?_append_cons L a []
    have hgb : (b :: rt).get? 0 = some b := rfl
    rw [merge_boundary, hga, hgb]
    simp only []
    by_cases hsm : a.length ≤ HIGH_WATER ∧ b.length ≤ HIGH_WATER
    · rw [if_pos hsm]
      right
      have ha : a ≠ [] := hnzl a (by simp)
      have ha1 : 1 ≤ a.length := by
        cases a with
        | nil => exact absurd rfl ha
        | cons x xs => simp
      have htk : (L ++ [a]).take ((L ++ [a]).length - 1) = L := by
        have : (L ++ [a]).length - 1 = L.length := by simp
        rw [this]
        exact take_append_cons L a []
      rw [slice_insert_zero, htk]
      refine ⟨ha1, by simp, by simp, ?_, ?_, ?_, ?_⟩
      · simp [leafLen_append, leafLen_cons, leafLen_nil]
      · simp [leafLen_cons]
        omega
      · intro s hs
        exact hnzl s (by simp [hs])
      · intro s hs
        rcases List.mem_cons.mp hs with rfl | hs2
        · intro he
          exact ha (List.append_eq_nil.mp he).1
        · exact hnzr s (List.mem_cons_of_mem _ (by simpa using hs2))
    · rw [if_neg hsm]
      left
      exact ⟨rfl, rfl, rfl⟩

/-- Specification of the leaf-level rebalance called with the true fills of
both lists: `i`'s side ends at the combined fill (if it fits) or at the
minimum fill, the byte total moves from `j` to `i`, and every output slice
comes from one of the inputs. -/
theorem rebalance_leaf_spec (li lj : List Slice) (iOnLeft : Bool)
    (hi : li.length ≤ BHALF - 1) (hj1 : BHALF - 1 ≤ lj.length)
    (hj2 : lj.length ≤ B) (hsum : BHALF ≤ li.length + lj.length) :
    (rebalance_leaf li lj li.length lj.length iOnLeft).1.length =
      (if li.length + lj.length ≤ B then li.length + lj.length else BHALF) ∧
    (rebalance_leaf li lj li.length lj.length iOnLeft).2.1.length +
      (rebalance_leaf li lj li.length lj.length iOnLeft).1.length =
      li.length + lj.length ∧
    leafLen (rebalance_leaf li lj li.length lj.length iOnLeft).1 =
      leafLen li + (rebalance_leaf li lj li.length lj.length iOnLeft).2.2 ∧
    leafLen (rebalance_leaf li lj li.length lj.length iOnLeft).2.1 +
      (rebalance_leaf li lj li.length lj.length iOnLeft).2.2 = leafLen lj ∧
    (∀ s ∈ (rebalance_leaf li lj li.length lj.length iOnLeft).1, s ∈ li ∨ s ∈ lj) ∧
    (∀ s ∈ (rebalance_leaf li lj li.length lj.length iOnLeft).2.1, s ∈ lj) := by
  have hB := B_eq
  have hBH := BHALF_eq
  have hcnt : (if li.length + lj.length ≤ B then lj.length else BHALF - li.length)
      ≤ lj.length := by
    split <;> omega
  set count := if li.length + lj.length ≤ B then lj.length else BHALF - li.length
    with hcdef
  have hsplit : lj.take count ++ lj.drop count = lj := List.take_append_drop _ _
  have hlentk : (lj.take count).length = count := by
    rw [List.length_take]
    omega
  have hlendr : (lj.drop count).length = lj.length - count := by
    rw [List.length_drop]
  have hlenlj : leafLen (lj.take count) + leafLen (lj.drop count) = leafLen lj := by
    rw [← leafLen_append, hsplit]
  have hsplit2 : lj.take (lj.length - count) ++ lj.drop (lj.length - count) = lj :=
    List.take_append_drop _ _
  have hlentk2 : (lj.take (lj.length - count)).length = lj.length - count := by
    rw [List.length_take]
    omega
  have hlendr2 : (lj.drop (lj.length - count)).length = count := by
    rw [List.length_drop]
    omega
  have hlenlj2 : leafLen (lj.take (lj.length - count)) +
      leafLen (lj.drop (lj.length - count)) = leafLen lj := by
    rw [← leafLen_append, hsplit2]
  cases iOnLeft with
  | true =>
    rw [rebalance_leaf]
    simp only [eq_self_iff_true, if_true, ← hcdef]
    have htf : (lj.drop count).take (lj.length - count) = lj.drop count :=
      take_full _ _ (by omega)
    rw [htf]
    refine ⟨?_, ?_, ?_, ?_, ?_, ?_⟩
    · rw [List.length_append, hlentk]
      rcases le_or_lt (li.length + lj.length) B with hbb | hbb
      · rw [if_pos hbb] at hcdef ⊢
        omega
      · rw [if_neg (by omega)] at hcdef ⊢
        omega
    · rw [List.length_append, hlentk, hlendr]
      omega
    · rw [leafLen_append]
      rfl
    · have : leafLen (lj.take count) = (List.map List.length (lj.take count)).sum := rfl
      omega
    · intro s hs
      rcases List.mem_append.mp hs with h | h
      · exact Or.inl h
      · exact Or.inr (List.take_subset _ _ h)
    · intro s hs
      exact List.drop_subset _ _ hs
  | false =>
    rw [rebalance_leaf]
    simp only [Bool.false_eq_true, if_false, ← hcdef]
    have htf : (lj.drop (lj.length - count)).take count = lj.drop (lj.length - count) :=
      take_full _ _ (by omega)
    rw [htf]
    refine ⟨?_, ?_, ?_, ?_, ?_, ?_⟩
    · rw [List.length_append, hlendr2]
      rcases le_or_lt (li.length + lj.length) B with hbb | hbb
      · rw [if_pos hbb] at hcdef ⊢
        omega
      · rw [if_neg (by omega)] at hcdef ⊢
        omega
    · rw [List.length_append, hlendr2, hlentk2]
      omega
    · rw [leafLen_append]
      have : leafLen (lj.drop (lj.length - count)) =
          (List.map List.length (lj.drop (lj.length - count))).sum := rfl
      omega
    · have : leafLen (lj.drop (lj.length - count)) =
          (List.map List.length (lj.drop (lj.length - count))).sum := rfl
      omega
    · intro s hs
      rcases List.mem_append.mp hs with h | h
      · exact Or.inr (List.drop_subset _ _ h)
      · exact Or.inl h
    · intro s hs
      exact List.take_subset _ _ hs

/-- Specification of the inner-level rebalance, with the moved span total tied
to child contents through the span invariant of the donor list. -/
theorem rebalance_inner_spec (li lj : List (Nat × N)) (iOnLeft : Bool)
    (hi : li.length ≤ BHALF - 1) (hj1 : BHALF - 1 ≤ lj.length)
    (hj2 : lj.length ≤ B) (hsum : BHALF ≤ li.length + lj.length)
    (hspj : ∀ k ∈ lj, k.1 = contentLen k.2) :
    (rebalance_inner li lj li.length lj.length iOnLeft).1.length =
      (if li.length + lj.length ≤ B then li.length + lj.length else BHALF) ∧
    (rebalance_inner li lj li.length lj.length iOnLeft).2.1.length +
      (rebalance_inner li lj li.length lj.length iOnLeft).1.length =
      li.length + lj.length ∧
    kidsContent (rebalance_inner li lj li.length lj.length iOnLeft).1 =
      kidsContent li + (rebalance_inner li lj li.length lj.length iOnLeft).2.2 ∧
    kidsContent (rebalance_inner li lj li.length lj.length iOnLeft).2.1 +
      (rebalance_inner li lj li.length lj.length iOnLeft).2.2 = kidsContent lj ∧
    (∀ k ∈ (rebalance_inner li lj li.length lj.length iOnLeft).1, k ∈ li ∨ k ∈ lj) ∧
    (∀ k ∈ (rebalance_inner li lj li.length lj.length iOnLeft).2.1, k ∈ lj) := by
  have hB := B_eq
  have hBH := BHALF_eq
  have hcnt : (if li.length + lj.length ≤ B then lj.length else BHALF - li.length)
      ≤ lj.length := by
    split <;> omega
  set count := if li.length + lj.length ≤ B then lj.length else BHALF - li.length
    with hcdef
  have hsplit : lj.take count ++ lj.drop count = lj := List.take_append_drop _ _
  have hlentk : (lj.take count).length = count := by
    rw [List.length_take]
    omega
  have hlendr : (lj.drop count).length = lj.length - count := by
    rw [List.length_drop]
  have hctk : (List.map Prod.fst (lj.take count)).sum = kidsContent (lj.take count) :=
    spans_sum_eq_kidsContent _ (fun k hk => hspj k (List.take_subset _ _ hk))
  have hcdr : (List.map Prod.fst (lj.drop (lj.length - count))).sum =
      kidsContent (lj.drop (lj.length - count)) :=
    spans_sum_eq_kidsContent _ (fun k hk => hspj k (List.drop_subset _ _ hk))
  have hlenlj : kidsContent (lj.take count) + kidsContent (lj.drop count) =
      kidsContent lj := by
    rw [← kidsContent_append, hsplit]
  have hsplit2 : lj.take (lj.length - count) ++ lj.drop (lj.length - count) = lj :=
    List.take_append_drop _ _
  have hlentk2 : (lj.take (lj.length - count)).length = lj.length - count := by
    rw [List.length_take]
    omega
  have hlendr2 : (lj.drop (lj.length - count)).length = count := by
    rw [List.length_drop]
    omega
  have hlenlj2 : kidsContent (lj.take (lj.length - count)) +
      kidsContent (lj.drop (lj.length - count)) = kidsContent lj := by
    rw [← kidsContent_append, hsplit2]
  cases iOnLeft with
  | true =>
    rw [rebalance_inner]
    simp only [eq_self_iff_true, if_true, ← hcdef]
    have htf : (lj.drop count).take (lj.length - count) = lj.drop count :=
      take_full _ _ (by omega)
    rw [htf]
    refine ⟨?_, ?_, ?_, ?_, ?_, ?_⟩
    · rw [List.length_append, hlentk]
      rcases le_or_lt (li.length + lj.length) B with hbb | hbb
      · rw [if_pos hbb] at hcdef ⊢
        omega
      · rw [if_neg (by omega)] at hcdef ⊢
        omega
    · rw [List.length_append, hlentk, hlendr]
      omega
    · rw [kidsContent_append, hctk]
    · omega
    · intro k hk
      rcases List.mem_append.mp hk with h | h
      · exact Or.inl h
      · exact Or.inr (List.take_subset _ _ h)
    · intro k hk
      exact List.drop_subset _ _ hk
  | false =>
    rw [rebalance_inner]
    simp only [Bool.false_eq_true, if_false, ← hcdef]
    have htf : (lj.drop (lj.length - count)).take count = lj.drop (lj.length - count) :=
      take_full _ _ (by omega)
    rw [htf]
    refine ⟨?_, ?_, ?_, ?_, ?_, ?_⟩
    · rw [List.length_append, hlendr2]
      rcases le_or_lt (li.length + lj.length) B with hbb | hbb
      · rw [if_pos hbb] at hcdef ⊢
        omega
      · rw [if_neg (by omega)] at hcdef ⊢
        omega
    · rw [List.length_append, hlendr2, hlentk2]
      omega
    · rw [kidsContent_append, hcdr]
      omega
    · omega
    · intro k hk
      rcases List.mem_append.mp hk with h | h
      · exact Or.inr (List.drop_subset _ _ h)
      · exact Or.inl h
    · intro k hk
      exact List.take_subset _ _ hk

theorem take_append_cons1 : ∀ (A : List α) (a : α) (X : List α),
    (A ++ a :: X).take (A.length + 1) = A ++ [a]
  | [], _, _ => rfl
  | p :: A, a, X => by
    simp only [List.cons_append, List.length_cons, List.take_succ_cons,
      take_append_cons1 A a X]

theorem getElem_append_cons2 (A : List α) (a b : α) (C : List α)
    (h : A.length + 1 < (A ++ a :: b :: C).length) :
    (A ++ a :: b :: C)[A.length + 1] = b := by
  have h2 := get?_append_cons2 A a b C
  rw [List.get?_eq_getElem?, List.getElem?_eq_getElem h] at h2
  exact Option.some.inj h2

/-- Specification of `delete_within_slice` at slot `i = pre.length` holding
`cur`, reinserting the fragment `nr`: on success the result holds every byte
of the input plus `nr` with at most `B` nonempty slices; the overflow return
only happens at a full leaf. -/
theorem delete_within_slice_spec (bs : BlockSt) (pre : List Slice) (cur nr : Slice)
    (post : List Slice) (hle : (pre ++ cur :: post).length ≤ B)
    (hnzp : ∀ s ∈ pre, s ≠ []) (hnzc : cur ≠ []) (hnzr : nr ≠ [])
    (hnzq : ∀ s ∈ post, s ≠ []) :
    (∀ newss,
        (delete_within_slice bs (pre ++ cur :: post) pre.length nr).2 = some newss →
        leafLen newss = leafLen (pre ++ cur :: post) + nr.length ∧
        newss.length ≤ B ∧ ∀ s ∈ newss, s ≠ []) ∧
    ((delete_within_slice bs (pre ++ cur :: post) pre.length nr).2 = none →
        (pre ++ cur :: post).length = B) := by
  have hB := B_eq
  rcases List.eq_nil_or_concat pre with rfl | ⟨A, pl, rfl⟩
  · cases post with
    | nil =>
      have hml := merge_slices_len bs [cur, nr]
      have hll := merge_slices_leafLen bs [cur, nr]
      simp only [List.length_cons, List.length_singleton, List.length_nil] at hml
      simp only [leafLen_cons, leafLen_nil] at hll
      have hnzw : ∀ s ∈ ([cur, nr] : List Slice), s ≠ [] := by
        intro s hs
        rcases List.mem_cons.mp hs with rfl | hs2
        · exact hnzc
        rcases List.mem_cons.mp hs2 with rfl | hs3
        · exact hnzr
        · cases hs3
      constructor
      · intro newss heq
        simp [delete_within_slice, apply_ite Prod.snd] at heq
        obtain ⟨hcond, hv⟩ := heq
        subst hv
        refine ⟨?_, ?_, merge_slices_nonzero bs [cur, nr] hnzw⟩
        · simp only [List.nil_append, leafLen_cons, leafLen_nil]
          omega
        · omega
      · intro heq
        simp [delete_within_slice, apply_ite Prod.snd] at heq
        simp only [List.nil_append, List.length_cons, List.length_nil]
        omega
    | cons p0 prest =>
      have hml := merge_slices_len bs [cur, nr, p0]
      have hll := merge_slices_leafLen bs [cur, nr, p0]
      simp only [List.length_cons, List.length_nil] at hml
      simp only [leafLen_cons, leafLen_nil] at hll
      have hnzw : ∀ s ∈ ([cur, nr, p0] : List Slice), s ≠ [] := by
        intro s hs
        rcases List.mem_cons.mp hs with rfl | hs2
        · exact hnzc
        rcases List.mem_cons.mp hs2 with rfl | hs3
        · exact hnzr
        rcases List.mem_cons.mp hs3 with rfl | hs4
        · exact hnzq _ (List.mem_cons_self _ _)
        · cases hs4
      simp only [List.length_cons, List.nil_append] at hle
      constructor
      · intro newss heq
        simp [delete_within_slice, apply_ite Prod.snd] at heq
        obtain ⟨hcond, hv⟩ := heq
        subst hv
        refine ⟨?_, ?_, ?_⟩
        · simp only [List.nil_append, leafLen_cons, leafLen_append]
          omega
        · simp only [List.length_append]
          omega
        · intro s hs
          rcases List.mem_append.mp hs with hs | hs
          · exact merge_slices_nonzero bs [cur, nr, p0] hnzw s hs
          · exact hnzq s (List.mem_cons_of_mem _ hs)
      · intro heq
        simp [delete_within_slice, apply_ite Prod.snd] at heq
        simp only [List.nil_append, List.length_cons]
        omega
  · simp only [List.concat_eq_append] at hnzp hle ⊢
    have hpl : pl ∈ A ++ [pl] := by simp
    have hplnz : pl ≠ [] := hnzp pl hpl
    cases post with
    | nil =>
      have htk1 : (A ++ pl :: cur :: ([] : List Slice)).take (A.length + 1) = A ++ [pl] :=
        take_append_cons1 A pl _
      have hdp : (A ++ [pl]).drop A.length = [pl] := drop_append_cons A pl []
      have hge : (A ++ pl :: cur :: ([] : List Slice))[A.length + 1] = cur :=
        getElem_append_cons2 A pl cur [] (by simp)
      have htk0 : (A ++ pl :: cur :: ([] : List Slice)).take A.length = A :=
        take_append_cons A pl _
      have hd3 : (A ++ pl :: cur :: ([] : List Slice)).drop (A.length + 2) = [] :=
        drop_append_cons3 A pl cur []
      have hml := merge_slices_len bs [pl, cur, nr]
      have hll := merge_slices_leafLen bs [pl, cur, nr]
      simp only [List.length_cons, List.length_nil] at hml
      simp only [leafLen_cons, leafLen_nil] at hll
      have hnzw : ∀ s ∈ ([pl, cur, nr] : List Slice), s ≠ [] := by
        intro s hs
        rcases List.mem_cons.mp hs with rfl | hs2
        · exact hplnz
        rcases List.mem_cons.mp hs2 with rfl | hs3
        · exact hnzc
        rcases List.mem_cons.mp hs3 with rfl | hs4
        · exact hnzr
        · cases hs4
      simp only [List.length_append, List.length_cons, List.length_singleton,
        List.length_nil] at hle
      constructor
      · intro newss heq
        simp [delete_within_slice, apply_ite Prod.snd, htk1, hdp, hge, htk0, hd3] at heq
        obtain ⟨hcond, hv⟩ := heq
        subst hv
        refine ⟨?_, ?_, ?_⟩
        · simp only [leafLen_append, leafLen_cons, leafLen_nil]
          omega
        · simp only [List.length_append]
          omega
        · intro s hs
          rcases List.mem_append.mp hs with hs | hs
          · exact hnzp s (List.mem_append_left _ hs)
          · exact merge_slices_nonzero bs [pl, cur, nr] hnzw s hs
      · intro heq
        simp [delete_within_slice, apply_ite Prod.snd, htk1, hdp, hge, htk0, hd3] at heq
        simp only [List.length_append, List.length_cons, List.length_singleton,
          List.length_nil]
        omega
    | cons p0 prest =>
      have htk1 : (A ++ pl :: cur :: p0 :: prest).take (A.length + 1) = A ++ [pl] :=
        take_append_cons1 A pl _
      have hdp : (A ++ [pl]).drop A.length = [pl] := drop_append_cons A pl []
      have hge : (A ++ pl :: cur :: p0 :: prest)[A.length + 1] = cur :=
        getElem_append_cons2 A pl cur (p0 :: prest) (by simp)
      have htk0 : (A ++ pl :: cur :: p0 :: prest).take A.length = A :=
        take_append_cons A pl _
      have hd2 : (A ++ pl :: cur :: p0 :: prest).drop (A.length + 2) = p0 :: prest :=
        drop_append_cons3 A pl cur _
      have hd4 : (A ++ pl :: cur :: p0 :: prest).drop (A.length + 3) = prest :=
        drop_append_cons4 A pl cur p0 prest
      have hml := merge_slices_len bs [pl, cur, nr, p0]
      have hll := merge_slices_leafLen bs [pl, cur, nr, p0]
      simp only [List.length_cons, List.length_nil] at hml
      simp only [leafLen_cons, leafLen_nil] at hll
      have hnzw : ∀ s ∈ ([pl, cur, nr, p0] : List Slice), s ≠ [] := by
        intro s hs
        rcases List.mem_cons.mp hs with rfl | hs2
        · exact hplnz
        rcases List.mem_cons.mp hs2 with rfl | hs3
        · exact hnzc
        rcases List.mem_cons.mp hs3 with rfl | hs4
        · exact hnzr
        rcases List.mem_cons.mp hs4 with rfl | hs5
        · exact hnzq _ (List.mem_cons_self _ _)
        · cases hs5
      simp only [List.length_append, List.length_cons, List.length_singleton,
        List.length_nil] at hle
      constructor
      · intro newss heq
        simp [delete_within_slice, apply_ite Prod.snd, htk1, hdp, hge, htk0,
          hd2, hd4] at heq
        obtain ⟨hcond, hv⟩ := heq
        subst hv
        refine ⟨?_, ?_, ?_⟩
        · simp only [leafLen_append, leafLen_cons, leafLen_nil]
          omega
        · simp only [List.length_append]
          omega
        · intro s hs
          rcases List.mem_append.mp hs with hs | hs
          · exact hnzp s (List.mem_append_left _ hs)
          rcases List.mem_append.mp hs with hs | hs
          · exact merge_slices_nonzero bs [pl, cur, nr, p0] hnzw s hs
          · exact hnzq s (List.mem_cons_of_mem _ hs)
      · intro heq
        simp [delete_within_slice, apply_ite Prod.snd, htk1, hdp, hge, htk0,
          hd2, hd4] at heq
        simp only [List.length_append, List.length_cons, List.length_singleton,
          List.length_nil]
        omega

theorem length_insertAt (l : List α) (i : Nat) (a : α) :
    (insertAt l i a).length = l.length + 1 := by
  simp only [insertAt, List.length_append, List.length_cons, List.length_take,
    List.length_drop]
  omega

theorem leafLen_insertAt (l : List Slice) (i : Nat) (a : Slice) :
    leafLen (insertAt l i a) = a.length + leafLen l := by
  simp only [insertAt, leafLen_append, leafLen_cons]
  have h2 : leafLen (l.take i) + leafLen (l.drop i) = leafLen l := by
    rw [← leafLen_append, List.take_append_drop]
  omega

theorem mem_insertAt (l : List α) (i : Nat) (a x : α) (h : x ∈ insertAt l i a) :
    x = a ∨ x ∈ l := by
  simp only [insertAt] at h
  rcases List.mem_append.mp h with h | h
  · exact Or.inr (List.take_subset _ _ h)
  rcases List.mem_cons.mp h with rfl | h
  · exact Or.inl rfl
  · exact Or.inr (List.drop_subset _ _ h)

theorem sum_map_eq_leafLen (l : List Slice) :
    (List.map List.length l).sum = leafLen l := rfl

/-- Merging any window of a leaf's slot list preserves the byte total. -/
theorem merge_window_leafLen (bs : BlockSt) (l : List Slice) (w tf : Nat) :
    leafLen (l.take w ++ (merge_slices bs ((l.drop w).take tf)).2 ++ l.drop (w + tf)) =
      leafLen l := by
  have hdd : l.drop (w + tf) = (l.drop w).drop tf := by rw [List.drop_drop]
  have hll := merge_slices_leafLen bs ((l.drop w).take tf)
  have hs1 : leafLen ((l.drop w).take tf) + leafLen ((l.drop w).drop tf) =
      leafLen (l.drop w) := by
    rw [← leafLen_append, List.take_append_drop]
  have hs0 : leafLen (l.take w) + leafLen (l.drop w) = leafLen l := by
    rw [← leafLen_append, List.take_append_drop]
  rw [hdd, leafLen_append, leafLen_append, hll]
  omega

/-- Merging a window never grows the fill. -/
theorem merge_window_len (bs : BlockSt) (l : List Slice) (w tf : Nat) :
    (l.take w ++ (merge_slices bs ((l.drop w).take tf)).2 ++ l.drop (w + tf)).length ≤
      l.length := by
  have hdd : l.drop (w + tf) = (l.drop w).drop tf := by rw [List.drop_drop]
  have hml := merge_slices_len bs ((l.drop w).take tf)
  have hs1 : ((l.drop w).take tf).length + ((l.drop w).drop tf).length =
      (l.drop w).length := by
    rw [← List.length_append, List.take_append_drop]
  have hs0 : (l.take w).length + (l.drop w).length = l.length := by
    rw [← List.length_append, List.take_append_drop]
  rw [hdd, List.length_append, List.length_append]
  omega

/-- Merging a window keeps all slices nonempty. -/
theorem merge_window_nonzero (bs : BlockSt) (l : List Slice) (w tf : Nat)
    (hnz : ∀ s ∈ l, s ≠ []) :
    ∀ s ∈ l.take w ++ (merge_slices bs ((l.drop w).take tf)).2 ++ l.drop (w + tf),
      s ≠ [] := by
  intro s hs
  rcases List.mem_append.mp hs with hs | hs
  · rcases List.mem_append.mp hs with hs | hs
    · exact hnz s (List.take_subset _ _ hs)
    · exact merge_slices_nonzero bs _
        (fun t ht => hnz t (List.drop_subset _ _ (List.take_subset _ _ ht))) s hs
  · exact hnz s (List.drop_subset _ _ hs)

/-- The upward channel computed by the multi-slice deletion case satisfies
`delUp` for any original leaf. -/
theorem delUp_of_nf (ss L : List Slice) :
    delUp 1 (N.leaf ss) (N.leaf L)
      (if L.length < BHALF then (if L.length == 0 then Up.emptied else Up.under L.length)
       else Up.fit) := by
  by_cases h1 : L.length < BHALF
  · rw [if_pos h1]
    by_cases h0 : L.length = 0
    · rw [if_pos (by simpa using h0)]
      exact ⟨h0, L, rfl⟩
    · rw [if_neg (by simpa using h0)]
      exact ⟨rfl, by omega, h1⟩
  · rw [if_neg h1]
    exact Or.inl (Nat.le_of_not_lt h1)

/-- The upward channel computed by the within-slice deletion case satisfies
`delUp` provided the leaf kept at least one slot. -/
theorem delUp_of_under (ss L : List Slice) (h1 : 1 ≤ L.length) :
    delUp 1 (N.leaf ss) (N.leaf L)
      (if L.length < BHALF then Up.under L.length else Up.fit) := by
  by_cases h : L.length < BHALF
  · rw [if_pos h]
    exact ⟨rfl, h1, h⟩
  · rw [if_neg h]
    exact Or.inl (Nat.le_of_not_lt h)

/-- `upLen` of the multi-slice upward channel is always zero. -/
theorem upLen_of_nf (L : List Slice) :
    upLen (if L.length < BHALF then
        (if L.length == 0 then Up.emptied else Up.under L.length)
      else Up.fit) = 0 := by
  by_cases h1 : L.length < BHALF
  · rw [if_pos h1]
    by_cases h0 : L.length == 0
    · rw [if_pos h0]; rfl
    · rw [if_neg h0]; rfl
  · rw [if_neg h1]; rfl

/-- `upLen` of the within-slice upward channel is always zero. -/
theorem upLen_of_under (L : List Slice) :
    upLen (if L.length < BHALF then Up.under L.length else Up.fit) = 0 := by
  by_cases h : L.length < BHALF
  · rw [if_pos h]; rfl
  · rw [if_neg h]; rfl

/-- The kept suffix of the final partially-deleted slot: all three code paths
(in-place small delete, buggy prefix rematerialization, pointer advance) keep
exactly `span - l2` bytes. -/
theorem keptLen (e : Slice) (l2 : Nat) :
    (if e.length ≤ HIGH_WATER then e.drop l2
     else if e.length - l2 ≤ HIGH_WATER then e.take (e.length - l2)
     else e.drop l2).length = e.length - l2 := by
  by_cases h1 : e.length ≤ HIGH_WATER
  · rw [if_pos h1, List.length_drop]
  · rw [if_neg h1]
    by_cases h2 : e.length - l2 ≤ HIGH_WATER
    · rw [if_pos h2, List.length_take]
      omega
    · rw [if_neg h2, List.length_drop]

/-- Specification of `delete_leaf` on a nonempty deletion starting inside the
leaf: it always succeeds, removes at least one byte (up to `len`), reports the
removed span and delta consistently, and leaves a structurally sound slot
list whose upward channel describes it truthfully. -/
theorem delete_leaf_spec (bs : BlockSt) (ss : List Slice) (pos0 len : Nat)
    (hnz : ∀ s ∈ ss, s ≠ []) (hle : ss.length ≤ B)
    (h1 : 1 ≤ pos0) (h2 : pos0 ≤ leafLen ss) (hlen : 1 ≤ len) :
    ∃ out, delete_leaf bs ss pos0 (-(len : Int)) = some out ∧
      WfTop out.node 1 ∧
      (∃ deleted, 1 ≤ deleted ∧ deleted ≤ len ∧
        out.spanOut = -(deleted : Int) ∧
        contentLen out.node + upLen out.up + deleted = leafLen ss ∧
        out.delta + (leafLen ss : Int) = (contentLen out.node : Int)) ∧
      delUp 1 (N.leaf ss) out.node out.up := by
  obtain ⟨pre, si, post, hdec, hi, hr, hlt, hle2⟩ := node_offset_slices ss pos0 h1 h2
  subst hdec
  have hB := B_eq
  have hBH := BHALF_eq
  have hsinz : si ≠ [] := hnz si (by simp)
  have hsi1 : 1 ≤ si.length := by
    cases si with
    | nil => exact absurd rfl hsinz
    | cons a t => simp
  have hlpre : leafLen (pre ++ si :: post) = leafLen pre + si.length + leafLen post := by
    rw [leafLen_append, leafLen_cons]
    omega
  have hlen0 : (pre ++ si :: post).length = pre.length + 1 + post.length := by
    simp only [List.length_append, List.length_cons]
    omega
  simp only [delete_leaf, hi, hr, get?_append_cons, Int.neg_neg, Int.toNat_ofNat,
    set_append_cons]
  by_cases hA : 0 < pos0 - leafLen pre - 1 ∧ pos0 - leafLen pre - 1 + len < si.length
  · rw [if_pos hA]
    obtain ⟨hA1, hA2⟩ := hA
    by_cases hsm : si.length ≤ HIGH_WATER
    · -- contained, small slice: in-place splice
      rw [if_pos hsm]
      have hXlen : (List.take (pos0 - leafLen pre - 1) si ++
          List.drop (pos0 - leafLen pre - 1 + len) si).length = si.length - len := by
        simp only [List.length_append, List.length_take, List.length_drop]
        omega
      refine ⟨_, rfl, ⟨rfl, ?_, ?_⟩, ⟨len, hlen, Nat.le_refl _, rfl, ?_, ?_⟩, ?_⟩
      · -- nonzero slices
        intro s hs
        rcases List.mem_append.mp hs with hs | hs
        · exact hnz s (List.mem_append_left _ hs)
        rcases List.mem_cons.mp hs with rfl | hs
        · intro he
          have := congrArg List.length he
          rw [hXlen] at this
          simp at this
          omega
        · exact hnz s (List.mem_append_right _ (List.mem_cons_of_mem _ hs))
      · -- fill bound
        simp only [List.length_append, List.length_cons] at hle ⊢
        omega
      · -- content accounting
        simp only [upLen, contentLen_leaf, leafLen_append, leafLen_cons, hXlen]
        simp only [leafLen_append, leafLen_cons] at hlpre
        omega
      · -- delta accounting
        simp only [contentLen_leaf, leafLen_append, leafLen_cons, hXlen]
        simp only [leafLen_append, leafLen_cons] at hlpre
        omega
      · -- upward channel: fit with unchanged fill
        refine Or.inr ?_
        simp only [fillOf, List.length_append, List.length_cons]
        omega
    · -- contained, large slice: delete within the slice, possibly splitting
      rw [if_neg hsm]
      have htknz : List.take (pos0 - leafLen pre - 1) si ≠ [] := by
        intro he
        have := congrArg List.length he
        rw [List.length_take] at this
        simp only [List.length_nil] at this
        omega
      have hdrnz : List.drop (pos0 - leafLen pre - 1 + len) si ≠ [] := by
        intro he
        have := congrArg List.length he
        rw [List.length_drop] at this
        simp only [List.length_nil] at this
        omega
      have hnz1 : ∀ s ∈ pre ++ List.take (pos0 - leafLen pre - 1) si :: post,
          s ≠ [] := by
        intro s hs
        rcases List.mem_append.mp hs with hs | hs
        · exact hnz s (List.mem_append_left _ hs)
        rcases List.mem_cons.mp hs with rfl | hs
        · exact htknz
        · exact hnz s (List.mem_append_right _ (List.mem_cons_of_mem _ hs))
      have hl1len : (pre ++ List.take (pos0 - leafLen pre - 1) si :: post).length =
          pre.length + 1 + post.length := by
        simp only [List.length_append, List.length_cons]
        omega
      have hl1content : leafLen (pre ++ List.take (pos0 - leafLen pre - 1) si :: post) =
          leafLen pre + (pos0 - leafLen pre - 1) + leafLen post := by
        rw [leafLen_append, leafLen_cons, List.length_take]
        omega
      have hspec := delete_within_slice_spec bs pre
        (List.take (pos0 - leafLen pre - 1) si)
        (List.drop (pos0 - leafLen pre - 1 + len) si) post
        (by rw [hl1len]; rw [hlen0] at hle; exact hle)
        (fun s hs => hnz s (List.mem_append_left _ hs)) htknz hdrnz
        (fun s hs => hnz s (List.mem_append_right _ (List.mem_cons_of_mem _ hs)))
      rcases hdws : (delete_within_slice bs
          (pre ++ List.take (pos0 - leafLen pre - 1) si :: post) pre.length
          (List.drop (pos0 - leafLen pre - 1 + len) si)).2 with _ | newss
      · -- overflow: the leaf was full; split and reinsert the right fragment
        simp only [hdws]
        have hfB := hspec.2 hdws
        rw [hl1len] at hfB
        have hB2 : B / 2 = 7 := by decide
        simp only [hB2]
        by_cases hpv : pre.length + 1 > 7
        · rw [if_pos hpv]
          simp only [if_pos hpv, Nat.reduceAdd]
          have hLl : (List.take 8
              (pre ++ List.take (pos0 - leafLen pre - 1) si :: post)).length = 8 := by
            rw [List.length_take, hl1len]
            omega
          have hRl : (List.drop 8
              (pre ++ List.take (pos0 - leafLen pre - 1) si :: post)).length = 7 := by
            rw [List.length_drop, hl1len]
            omega
          have hsplitC : leafLen (List.take 8
                (pre ++ List.take (pos0 - leafLen pre - 1) si :: post)) +
              leafLen (List.drop 8
                (pre ++ List.take (pos0 - leafLen pre - 1) si :: post)) =
              leafLen (pre ++ List.take (pos0 - leafLen pre - 1) si :: post) := by
            rw [← leafLen_append, List.take_append_drop]
          refine ⟨_, rfl, ⟨rfl, ?_, ?_⟩, ⟨len, hlen, Nat.le_refl _, rfl, ?_, ?_⟩, ?_⟩
          · intro s hs
            exact hnz1 s (List.take_subset _ _ hs)
          · rw [hLl]
            omega
          · simp only [upLen, contentLen_leaf, sum_map_eq_leafLen, List.length_drop]
            simp only [leafLen_append, leafLen_cons] at hlpre hsplitC hl1content ⊢
            omega
          · simp only [contentLen_leaf, sum_map_eq_leafLen, List.length_drop]
            simp only [leafLen_append, leafLen_cons] at hlpre hsplitC hl1content ⊢
            omega
          · refine ⟨?_, ?_, ?_⟩
            · simp only [fillOf, hLl]
              omega
            · refine WfN.leaf _ false ?_ (Or.inr ?_) ?_
              · intro s hs
                rcases mem_insertAt _ _ _ _ hs with rfl | hs
                · exact hdrnz
                · exact hnz1 s (List.drop_subset _ _ hs)
              · rw [length_insertAt, hRl]
                omega
              · rw [length_insertAt, hRl]
                omega
            · simp only [contentLen_leaf, leafLen_insertAt, sum_map_eq_leafLen,
                List.length_drop]
              omega
        · rw [if_neg hpv]
          simp only [if_neg hpv, Nat.add_zero]
          have hLl : (List.take 7
              (pre ++ List.take (pos0 - leafLen pre - 1) si :: post)).length = 7 := by
            rw [List.length_take, hl1len]
            omega
          have hRl : (List.drop 7
              (pre ++ List.take (pos0 - leafLen pre - 1) si :: post)).length = 8 := by
            rw [List.length_drop, hl1len]
            omega
          have hsplitC : leafLen (List.take 7
                (pre ++ List.take (pos0 - leafLen pre - 1) si :: post)) +
              leafLen (List.drop 7
                (pre ++ List.take (pos0 - leafLen pre - 1) si :: post)) =
              leafLen (pre ++ List.take (pos0 - leafLen pre - 1) si :: post) := by
            rw [← leafLen_append, List.take_append_drop]
          refine ⟨_, rfl, ⟨rfl, ?_, ?_⟩, ⟨len, hlen, Nat.le_refl _, rfl, ?_, ?_⟩, ?_⟩
          · intro s hs
            rcases mem_insertAt _ _ _ _ hs with rfl | hs
            · exact hdrnz
            · exact hnz1 s (List.take_subset _ _ hs)
          · rw [length_insertAt, hLl]
            omega
          · simp only [upLen, contentLen_leaf, sum_map_eq_leafLen, leafLen_insertAt,
              List.length_drop]
            simp only [leafLen_append, leafLen_cons] at hlpre hsplitC hl1content ⊢
            omega
          · simp only [contentLen_leaf, sum_map_eq_leafLen, leafLen_insertAt,
              List.length_drop]
            simp only [leafLen_append, leafLen_cons] at hlpre hsplitC hl1content ⊢
            omega
          · refine ⟨?_, ?_, ?_⟩
            · simp only [fillOf, length_insertAt, hLl]
              omega
            · refine WfN.leaf _ false ?_ (Or.inr ?_) ?_
              · intro s hs
                exact hnz1 s (List.drop_subset _ _ hs)
              · rw [hRl]
                omega
              · rw [hRl]
                omega
            · simp only [contentLen_leaf, sum_map_eq_leafLen]
      · -- merged back in place
        simp only [hdws]
        obtain ⟨hleq, hfill, hnzn⟩ := hspec.1 newss hdws
        have hn1 : 1 ≤ newss.length := by
          cases newss with
          | nil =>
            exfalso
            rw [leafLen_nil, hl1content] at hleq
            omega
          | cons a t => simp
        refine ⟨_, rfl, ⟨rfl, hnzn, hfill⟩, ⟨len, hlen, Nat.le_refl _, rfl, ?_, ?_⟩,
          delUp_of_under _ _ hn1⟩
        · rw [upLen_of_under, contentLen_leaf, hleq]
          rw [List.length_drop, hl1content]
          simp only [leafLen_append, leafLen_cons] at hlpre ⊢
          omega
        · rw [contentLen_leaf, hleq, List.length_drop, hl1content]
          simp only [leafLen_append, leafLen_cons] at hlpre ⊢
          omega
  · -- the deletion leaves this slice's tail, then spans further slots
    rw [if_neg hA]
    by_cases hp : 0 < pos0 - leafLen pre - 1
    · -- nonzero in-slice offset: truncate slot i, then consume whole slots
      simp only [if_pos hp, take_append_cons, drop_append_cons2]
      obtain ⟨k, hk, hdrop, htk, hres, hhead⟩ :=
        consume_spec (len - (List.length si - (pos0 - leafLen pre - 1))) post
      have hlen1 : List.length si - (pos0 - leafLen pre - 1) ≤ len := by
        rcases Nat.lt_or_ge (pos0 - leafLen pre - 1 + len) (List.length si) with h | h
        · exact absurd ⟨hp, h⟩ hA
        · omega
      have hp1 : pos0 - leafLen pre - 1 < List.length si := by omega
      have htrunc_nz : ∀ s ∈ pre ++ [List.take (pos0 - leafLen pre - 1) si], s ≠ [] := by
        intro s hs
        rcases List.mem_append.mp hs with hs | hs
        · exact hnz s (List.mem_append_left _ hs)
        · have hse := List.mem_singleton.mp hs
          subst hse
          intro he
          have := congrArg List.length he
          rw [List.length_take] at this
          simp only [List.length_nil] at this
          omega
      rcases hrest : (consume (len - (List.length si - (pos0 - leafLen pre - 1))) post).2.2
        with _ | ⟨e, es⟩
      · -- every remaining slot was consumed whole
        simp only [hrest, List.append_nil]
        have hdk : post.drop k = [] := by rw [← hdrop, hrest]
        have hkfull : post.take k = post := by
          refine take_full _ _ ?_
          have := congrArg List.length hdk
          rw [List.length_drop] at this
          simp only [List.length_nil] at this
          omega
        rw [hkfull] at htk hres
        refine ⟨_, rfl, ⟨rfl, ?_, ?_⟩,
          ⟨len - (consume (len - (List.length si -
              (pos0 - leafLen pre - 1))) post).2.1, ?_, ?_, ?_, ?_, ?_⟩,
          delUp_of_nf _ _⟩
        · exact merge_window_nonzero bs _ _ _ htrunc_nz
        · refine le_trans (merge_window_len bs _ _ _) ?_
          simp only [List.length_append, List.length_cons, List.length_nil] at hle ⊢
          omega
        · omega
        · omega
        · simp only []
          omega
        · simp only [upLen_of_nf, contentLen_leaf]
          rw [merge_window_leafLen]
          simp only [leafLen_append, leafLen_cons, leafLen_nil, List.length_take]
          simp only [leafLen_append, leafLen_cons] at hlpre
          omega
        · simp only [contentLen_leaf]
          rw [merge_window_leafLen]
          simp only [leafLen_append, leafLen_cons, leafLen_nil, List.length_take]
          simp only [leafLen_append, leafLen_cons] at hlpre
          omega
      · -- a final slot is only partially deleted
        simp only [hrest]
        have hdk : post.drop k = e :: es := by rw [← hdrop, hrest]
        have hl2lt := hhead e es hdk
        have hkl := keptLen e
          ((consume (len - (List.length si - (pos0 - leafLen pre - 1))) post).2.1)
        have hsplitP : leafLen (post.take k) + leafLen (post.drop k) = leafLen post := by
          rw [← leafLen_append, List.take_append_drop]
        rw [hdk, leafLen_cons] at hsplitP
        have hlz := congrArg List.length hdk
        rw [List.length_drop] at hlz
        simp only [List.length_cons] at hlz
        refine ⟨_, rfl, ⟨rfl, ?_, ?_⟩, ⟨len, hlen, Nat.le_refl _, ?_, ?_, ?_⟩,
          delUp_of_nf _ _⟩
        · refine merge_window_nonzero bs _ _ _ ?_
          intro s hs
          rcases List.mem_append.mp hs with hs | hs
          · exact htrunc_nz s hs
          rcases List.mem_cons.mp hs with rfl | hs
          · intro he
            have := congrArg List.length he
            rw [hkl] at this
            simp only [List.length_nil] at this
            omega
          · exact hnz s (List.mem_append_right _ (List.mem_cons_of_mem _
              (List.drop_subset _ _ (hdk ▸ List.mem_cons_of_mem e hs))))
        · refine le_trans (merge_window_len bs _ _ _) ?_
          simp only [List.length_append, List.length_cons, List.length_nil] at hle ⊢
          omega
        · simp only []
          omega
        · simp only [upLen_of_nf, contentLen_leaf]
          rw [merge_window_leafLen]
          simp only [leafLen_append, leafLen_cons, leafLen_nil, List.length_take, hkl]
          simp only [leafLen_append, leafLen_cons] at hlpre
          omega
        · simp only [contentLen_leaf]
          rw [merge_window_leafLen]
          simp only [leafLen_append, leafLen_cons, leafLen_nil, List.length_take, hkl]
          simp only [leafLen_append, leafLen_cons] at hlpre
          omega
    · -- the deletion starts at the slice boundary: slot i is consumed too
      simp only [if_neg hp, take_append_cons, drop_append_cons]
      obtain ⟨k, hk, hdrop, htk, hres, hhead⟩ := consume_spec len (si :: post)
      have htail_nz : ∀ s ∈ si :: post, s ≠ [] :=
        fun s hs => hnz s (List.mem_append_right _ hs)
      rcases hrest : (consume len (si :: post)).2.2 with _ | ⟨e, es⟩
      · -- every slot from i on was consumed whole
        simp only [hrest, List.append_nil]
        have hdk : (si :: post).drop k = [] := by rw [← hdrop, hrest]
        have hkfull : (si :: post).take k = si :: post := by
          refine take_full _ _ ?_
          have := congrArg List.length hdk
          rw [List.length_drop] at this
          simp only [List.length_nil] at this
          omega
        rw [hkfull, leafLen_cons] at htk hres
        refine ⟨_, rfl, ⟨rfl, ?_, ?_⟩,
          ⟨len - (consume len (si :: post)).2.1, ?_, ?_, ?_, ?_, ?_⟩,
          delUp_of_nf _ _⟩
        · exact merge_window_nonzero bs _ _ _
            (fun s hs => hnz s (List.mem_append_left _ hs))
        · refine le_trans (merge_window_len bs _ _ _) ?_
          simp only [List.length_append, List.length_cons] at hle ⊢
          omega
        · omega
        · omega
        · simp only []
          omega
        · simp only [upLen_of_nf, contentLen_leaf]
          rw [merge_window_leafLen]
          simp only [leafLen_append, leafLen_cons, leafLen_nil]
          simp only [leafLen_append, leafLen_cons] at hlpre
          omega
        · simp only [contentLen_leaf]
          rw [merge_window_leafLen]
          simp only [leafLen_append, leafLen_cons, leafLen_nil]
          simp only [leafLen_append, leafLen_cons] at hlpre
          omega
      · -- a final slot is only partially deleted
        simp only [hrest]
        have hdk : (si :: post).drop k = e :: es := by rw [← hdrop, hrest]
        have hl2lt := hhead e es hdk
        have hkl := keptLen e ((consume len (si :: post)).2.1)
        have hsplitP : leafLen ((si :: post).take k) + leafLen ((si :: post).drop k) =
            leafLen (si :: post) := by
          rw [← leafLen_append, List.take_append_drop]
        rw [hdk, leafLen_cons, leafLen_cons] at hsplitP
        have hlz := congrArg List.length hdk
        rw [List.length_drop] at hlz
        simp only [List.length_cons] at hlz
        refine ⟨_, rfl, ⟨rfl, ?_, ?_⟩, ⟨len, hlen, Nat.le_refl _, ?_, ?_, ?_⟩,
          delUp_of_nf _ _⟩
        · refine merge_window_nonzero bs _ _ _ ?_
          intro s hs
          rcases List.mem_append.mp hs with hs | hs
          · exact hnz s (List.mem_append_left _ hs)
          rcases List.mem_cons.mp hs with rfl | hs
          · intro he
            have := congrArg List.length he
            rw [hkl] at this
            simp only [List.length_nil] at this
            omega
          · exact htail_nz s (List.drop_subset _ _ (hdk ▸ List.mem_cons_of_mem e hs))
        · refine le_trans (merge_window_len bs _ _ _) ?_
          simp only [List.length_append, List.length_cons] at hle hlz ⊢
          omega
        · simp only []
          omega
        · simp only [upLen_of_nf, contentLen_leaf]
          rw [merge_window_leafLen]
          simp only [leafLen_append, leafLen_cons, leafLen_nil, hkl]
          simp only [leafLen_append, leafLen_cons] at hlpre
          omega
        · simp only [contentLen_leaf]
          rw [merge_window_leafLen]
          simp only [leafLen_append, leafLen_cons, leafLen_nil, hkl]
          simp only [leafLen_append, leafLen_cons] at hlpre
          omega

end Libpt
